import Mathlib

/-!
Verification of the Personal Vault kernel: the `EventBus` publish/subscribe
router, the `ModuleLoader`, and the `VaultCore` orchestrator.

The JavaScript source is embedded shallowly:

* callbacks (JS function objects) are modelled by opaque identifiers (`Nat`);
  a callback's behaviour is a parameter `Behavior` mapping the identifier and
  the delivered event to either a result value or a thrown error.  Callbacks
  are modelled as pure: they do not re-enter the bus themselves.
* JS `Map`s are association lists in insertion order; `Map.set` replaces the
  first matching key in place or appends, `Map.delete` removes the key.
* the random listener/event id strings (`generateListenerId`,
  `generateEventId`) are modelled by monotone counters, so an id doubles as a
  registration sequence number.  Wall-clock fields (`timestamp`,
  `performance.now`, the `slowEvents` log) are not modelled: no claim
  mentions them and they are observability only.
* `matchesWildcard` compiles `'^' + pattern.replace(/\*/g, '.*') + '$'` and
  tests the event type coerced to a string; it is modelled as anchored glob
  matching where each `*` matches any substring, assuming patterns contain no
  other regex metacharacters.
-/

/-- A JavaScript primitive value as far as the router observes it: the event
type handed to `emit` is used only as a `Map` key and (for wildcard matching)
coerced to a string, so strings and numbers suffice to model well-typed and
mis-typed calls alike. -/
inductive JVal where
  | vstr (s : String)
  | vnum (n : Int)
deriving DecidableEq, Repr

/-- JS string coercion `String(v)` for the values of `JVal`. -/
def JVal.toStringJS : JVal → String
  | .vstr s => s
  | .vnum n => toString n

/-- An exact-pattern listener entry as stored in a per-pattern bucket:
`{ callback, config: { once, priority, id } }` of `EventBus.on`.  The `id`
(unique, increasing) stands for both `config.id` and the object identity used
by `listenersToRemove.includes(l)`. -/
structure Listener where
  id : Nat
  callback : Nat
  once : Bool
  priority : Int
deriving DecidableEq, Repr

/-- A wildcard listener entry `{ pattern, callback, config }` stored in
`wildcardListeners`.  `once` and `priority` are stored in the config exactly
as for exact listeners, but the wildcard delivery loop of `emit` never reads
them. -/
structure WListener where
  id : Nat
  pattern : String
  callback : Nat
  once : Bool
  priority : Int
deriving DecidableEq, Repr

/-- The event envelope built at the top of `emit`
(`{ type, data, timestamp, id, source }`); the wall-clock `timestamp` and the
`source` tag are not modelled. -/
structure EventData where
  type : JVal
  data : JVal
  id : Nat
deriving DecidableEq, Repr

/-- The behaviour of the (pure) callback with a given identifier: the value
it returns, or the error it throws, for a given delivered event. -/
def Behavior : Type := Nat → EventData → Except String Nat

/-- Association-list lookup, the model of JS `Map.prototype.get`. -/
def mapGet {κ α : Type} [DecidableEq κ] : List (κ × α) → κ → Option α
  | [], _ => none
  | (k, v) :: rest, k' => if k = k' then some v else mapGet rest k'

/-- Association-list update, the model of JS `Map.prototype.set`: replace the
first binding of the key in place, else append a new binding. -/
def mapSet {κ α : Type} [DecidableEq κ] : List (κ × α) → κ → α → List (κ × α)
  | [], k', v' => [(k', v')]
  | (k, v) :: rest, k', v' =>
      if k = k' then (k', v') :: rest else (k, v) :: mapSet rest k' v'

/-- Association-list removal, the model of JS `Map.prototype.delete`. -/
def mapDelete {κ α : Type} [DecidableEq κ] (m : List (κ × α)) (k' : κ) :
    List (κ × α) :=
  m.filter (fun kv => kv.1 ≠ k')

/-- Anchored glob matching: the semantics of the regex
`'^' + pattern.replace(/\*/g, '.*') + '$'` from `matchesWildcard`, for
patterns whose only regex metacharacter is `*`. -/
def globMatch : List Char → List Char → Bool
  | [], s => s.isEmpty
  | '*' :: ps, s => s.tails.any (fun t => globMatch ps t)
  | _ :: _, [] => false
  | p :: ps, c :: cs => p == c && globMatch ps cs

/-- `EventBus.matchesWildcard(eventType, pattern)`: the event type is coerced
to a string by the regex test. -/
def matchesWildcard (eventType : JVal) (pattern : String) : Bool :=
  globMatch pattern.toList eventType.toStringJS.toList

/-- `this.maxHistorySize = 100`. -/
def maxHistorySize : Nat := 100

/-- The mutable state of an `EventBus` instance, for runs in which each
emission completes before the next operation starts (the interleaved machine
`EventBusM` below models overlapping emissions).  `events` is the exact
pattern `Map`, `wildcardListeners` the wildcard `Set` in insertion order. -/
structure EventBus where
  events : List (JVal × List Listener)
  wildcardListeners : List WListener
  eventHistory : List EventData
  nextListenerId : Nat
  nextEventId : Nat
deriving DecidableEq, Repr

/-- A freshly constructed `EventBus`. -/
def EventBus.empty : EventBus :=
  { events := [], wildcardListeners := [], eventHistory := [],
    nextListenerId := 0, nextEventId := 0 }

/-- `eventType.includes('*')`. -/
def includesStar (s : String) : Bool := s.toList.contains '*'

/-- The priority insertion of `EventBus.on`: find the first stored listener
with strictly lower priority (`findIndex(l => l.config.priority <
config.priority)`) and splice the new listener in before it, else push at the
end.  Equal priorities therefore keep registration order. -/
def insertByPriority (nl : Listener) : List Listener → List Listener
  | [] => [nl]
  | l :: ls =>
      if l.priority < nl.priority then nl :: l :: ls
      else l :: insertByPriority nl ls

/-- `EventBus.on(eventType, callback, { priority, once })`.  The source
throws unless `eventType` is a string and `callback` a function; both are
enforced here by typing (`eventType : String`, `callback : Nat` names a
function object).  Wildcard patterns go to the wildcard set, exact patterns
into the per-pattern priority bucket. -/
def EventBus.on (b : EventBus) (eventType : String) (callback : Nat)
    (priority : Int) (once : Bool) : EventBus :=
  let lid := b.nextListenerId
  if includesStar eventType then
    { b with
      wildcardListeners :=
        b.wildcardListeners ++ [⟨lid, eventType, callback, once, priority⟩],
      nextListenerId := lid + 1 }
  else
    let key := JVal.vstr eventType
    let bucket := (mapGet b.events key).getD []
    let bucket' := insertByPriority ⟨lid, callback, once, priority⟩ bucket
    { b with events := mapSet b.events key bucket', nextListenerId := lid + 1 }

/-- `EventBus.once(eventType, callback, options)` delegates to `on` with the
`once` flag forced. -/
def EventBus.onceSub (b : EventBus) (eventType : String) (callback : Nat)
    (priority : Int) : EventBus :=
  b.on eventType callback priority true

/-- `EventBus.off(eventType, callback)`: wildcard patterns rebuild the
wildcard set without the matching entries; exact patterns filter the bucket
by callback identity and delete the bucket entirely when it becomes empty. -/
def EventBus.off (b : EventBus) (eventType : String) (callback : Nat) :
    EventBus :=
  if includesStar eventType then
    { b with
      wildcardListeners := b.wildcardListeners.filter
        (fun l => !(l.pattern == eventType && l.callback == callback)) }
  else
    match mapGet b.events (JVal.vstr eventType) with
    | none => b
    | some listeners =>
        let filtered := listeners.filter (fun l => l.callback != callback)
        if filtered.isEmpty then
          { b with events := mapDelete b.events (JVal.vstr eventType) }
        else
          { b with events := mapSet b.events (JVal.vstr eventType) filtered }

/-- One invocation record: which listener entry (`lid`), which callback, the
type of the emission that delivered to it, and whether it was reached through
the wildcard loop.  This is ghost instrumentation marking exactly the
`executeListener` call sites of `emit`. -/
structure InvRec where
  lid : Nat
  callback : Nat
  type : JVal
  wildcard : Bool
deriving DecidableEq, Repr

/-- Accumulated output of one delivery loop of `emit`: handler results,
collected errors `(listener id, message)`, once-listeners marked for removal,
and the invocation log. -/
structure RunOut where
  results : List Nat
  errors : List (Nat × String)
  toRemove : List Nat
  log : List InvRec
deriving DecidableEq, Repr

/-- The regular-listener loop of `emit`: each listener is invoked inside its
own try/catch; a successful once-listener is pushed onto `listenersToRemove`
(a listener that throws is not), an error is collected and delivery
continues. -/
def runListeners (beh : Behavior) (ed : EventData) : List Listener → RunOut
  | [] => ⟨[], [], [], []⟩
  | l :: ls =>
      let rest := runListeners beh ed ls
      match beh l.callback ed with
      | .ok v =>
          ⟨v :: rest.results, rest.errors,
            (if l.once then l.id :: rest.toRemove else rest.toRemove),
            ⟨l.id, l.callback, ed.type, false⟩ :: rest.log⟩
      | .error e =>
          ⟨rest.results, (l.id, e) :: rest.errors, rest.toRemove,
            ⟨l.id, l.callback, ed.type, false⟩ :: rest.log⟩

/-- The wildcard loop of `emit`: every wildcard listener whose pattern
matches the event type is invoked in insertion order, each inside its own
try/catch; the `once` flag is never consulted here. -/
def runWildcards (beh : Behavior) (ed : EventData) : List WListener → RunOut
  | [] => ⟨[], [], [], []⟩
  | w :: ws =>
      let rest := runWildcards beh ed ws
      if matchesWildcard ed.type w.pattern then
        match beh w.callback ed with
        | .ok v =>
            ⟨v :: rest.results, rest.errors, rest.toRemove,
              ⟨w.id, w.callback, ed.type, true⟩ :: rest.log⟩
        | .error e =>
            ⟨rest.results, (w.id, e) :: rest.errors, rest.toRemove,
              ⟨w.id, w.callback, ed.type, true⟩ :: rest.log⟩
      else rest

/-- Result of one `emit` call: the updated bus, the resolved value `results`,
the primary emission's collected errors, and the invocation log (including
invocations performed by the secondary diagnostic emission). -/
structure EmitOut where
  bus : EventBus
  results : List Nat
  errors : List (Nat × String)
  log : List InvRec
deriving DecidableEq, Repr

/-- The body of `EventBus.emit` without the secondary diagnostic emission:
build the envelope, append it to the bounded history (push then shift the
oldest once the length exceeds `maxHistorySize`), run the regular bucket,
remove the collected once-listeners (deleting the bucket if it empties), then
run the wildcard set.  `emit` performs no validation of `eventType`: any
`JVal` is used directly as the `Map` key.  The only throw sites of the source
body are regex construction for glob-unsafe wildcard patterns, which the glob
model excludes, so the model is total and the call always resolves. -/
def EventBus.emitBody (beh : Behavior) (b : EventBus) (etype data : JVal) :
    EmitOut :=
  let ed : EventData := { type := etype, data := data, id := b.nextEventId }
  let hist1 := b.eventHistory ++ [ed]
  let hist2 := if maxHistorySize < hist1.length then hist1.drop 1 else hist1
  let b1 := { b with eventHistory := hist2, nextEventId := b.nextEventId + 1 }
  let listeners := (mapGet b1.events etype).getD []
  let ro := runListeners beh ed listeners
  let b2 :=
    if ro.toRemove.isEmpty then b1
    else
      let remaining := listeners.filter (fun l => !(ro.toRemove.contains l.id))
      if remaining.isEmpty then { b1 with events := mapDelete b1.events etype }
      else { b1 with events := mapSet b1.events etype remaining }
  let wo := runWildcards beh ed b2.wildcardListeners
  { bus := b2, results := ro.results ++ wo.results,
    errors := ro.errors ++ wo.errors, log := ro.log ++ wo.log }

/-- `EventBus.emit(eventType, data)`.  If any listener errored and the event
is not itself `system:error`, a secondary `system:error` emission is fired
and forgotten (its results and errors are dropped); the guard means the
secondary emission can never fire a tertiary one, so it is exactly
`emitBody`.  The secondary error-report payload object is modelled by an
opaque string. -/
def EventBus.emit (beh : Behavior) (b : EventBus) (etype data : JVal) :
    EmitOut :=
  let o := EventBus.emitBody beh b etype data
  if !o.errors.isEmpty && etype != JVal.vstr "system:error" then
    let sec := EventBus.emitBody beh o.bus (JVal.vstr "system:error")
      (JVal.vstr "listener-error-report")
    { bus := sec.bus, results := o.results, errors := o.errors,
      log := o.log ++ sec.log }
  else o

/-- `EventBus.getHistory(limit)` is `eventHistory.slice(-limit)`: for a
positive limit the most recent `limit` envelopes, for limit `0` the whole
buffer (`slice(-0)` is `slice(0)`), and for a negative limit
`slice(-limit)` drops the oldest `-limit` envelopes. -/
def EventBus.getHistory (b : EventBus) (limit : Int) : List EventData :=
  if 0 < limit then b.eventHistory.drop (b.eventHistory.length - limit.toNat)
  else b.eventHistory.drop (-limit).toNat

/-- Run a sequence of non-overlapping emissions, threading the bus. -/
def runEmits (beh : Behavior) (b : EventBus) :
    List (JVal × JVal) → EventBus
  | [] => b
  | (t, d) :: rest => runEmits beh (EventBus.emit beh b t d).bus rest

/-- Run a sequence of non-overlapping emissions, also accumulating the
invocation logs in order. -/
def runEmitsLog (beh : Behavior) (b : EventBus) :
    List (JVal × JVal) → EventBus × List InvRec
  | [] => (b, [])
  | (t, d) :: rest =>
      let o := EventBus.emit beh b t d
      let r := runEmitsLog beh o.bus rest
      (r.1, o.log ++ r.2)

/-!
## The interleaved machine

`emit` is `async` and suspends at every `await this.executeListener(...)`, so
two emissions issued before either settles interleave.  The machine below
models this cooperative execution.  Mutable JS objects are heap-allocated:
`events` maps a pattern to the id of an array object in `arrHeap`, and the
`wildcardListeners` field holds the id of a `Set` object in `wcHeap`, because
the source aliases them: an in-flight emission iterates the array object it
read at its start (`const listeners = this.events.get(eventType) || []`),
`on` mutates that object in place (`push`/`splice`/`Set.add`), while `off`
builds a fresh object with `filter` and repoints the registry.  Heap entries
are never deallocated (JS garbage collection is unobservable).

One machine step runs a task from its last suspension to its next one: it
invokes exactly one listener callback (callbacks are synchronous here), with
phase transitions (end of the regular loop, once-removal, capture of the
wildcard set) folded into the step in which they happen, matching the
source's synchronous stretches between `await`s.  A `for...of` loop over an
array or `Set` checks the live length each iteration, so elements appended
during a suspension are visited.
-/

/-- The mutable registries of an `EventBus` instance, with the mutable array
and `Set` objects held in explicit heaps. -/
structure EventBusM where
  eventsM : List (String × Nat)
  arrHeap : List (Nat × List Listener)
  wcRef : Nat
  wcHeap : List (Nat × List WListener)
  historyM : List EventData
  nextArr : Nat
  nextSet : Nat
  nextLid : Nat
  nextEid : Nat
deriving DecidableEq, Repr

/-- A freshly constructed bus: one empty wildcard `Set` object. -/
def EventBusM.empty : EventBusM :=
  { eventsM := [], arrHeap := [], wcRef := 0, wcHeap := [(0, [])],
    historyM := [], nextArr := 0, nextSet := 1, nextLid := 0, nextEid := 0 }

/-- `EventBus.on` against the machine state: `Set.add` and `push`/`splice`
mutate the current heap object in place; a missing bucket first gets a fresh
empty array (`events.set(eventType, [])`). -/
def EventBusM.onM (b : EventBusM) (eventType : String) (cb : Nat)
    (priority : Int) (once : Bool) : EventBusM :=
  let lid := b.nextLid
  if includesStar eventType then
    let cur := (mapGet b.wcHeap b.wcRef).getD []
    { b with
      wcHeap := mapSet b.wcHeap b.wcRef
        (cur ++ [⟨lid, eventType, cb, once, priority⟩]),
      nextLid := lid + 1 }
  else
    match mapGet b.eventsM eventType with
    | some r =>
        let cur := (mapGet b.arrHeap r).getD []
        { b with
          arrHeap := mapSet b.arrHeap r
            (insertByPriority ⟨lid, cb, once, priority⟩ cur),
          nextLid := lid + 1 }
    | none =>
        let r := b.nextArr
        { b with
          eventsM := mapSet b.eventsM eventType r,
          arrHeap := mapSet b.arrHeap r [⟨lid, cb, once, priority⟩],
          nextArr := r + 1, nextLid := lid + 1 }

/-- `EventBus.off` against the machine state: both branches build a fresh
filtered object (`new Set([...].filter(...))`, `listeners.filter(...)`) and
repoint the registry, never mutating the object an in-flight emission may
hold; an emptied exact bucket is deleted from the map. -/
def EventBusM.offM (b : EventBusM) (eventType : String) (cb : Nat) :
    EventBusM :=
  if includesStar eventType then
    let cur := (mapGet b.wcHeap b.wcRef).getD []
    let s := b.nextSet
    { b with
      wcHeap := mapSet b.wcHeap s
        (cur.filter (fun l => !(l.pattern == eventType && l.callback == cb))),
      wcRef := s, nextSet := s + 1 }
  else
    match mapGet b.eventsM eventType with
    | none => b
    | some r =>
        let cur := (mapGet b.arrHeap r).getD []
        let filtered := cur.filter (fun l => l.callback != cb)
        if filtered.isEmpty then
          { b with eventsM := mapDelete b.eventsM eventType }
        else
          let r' := b.nextArr
          { b with
            arrHeap := mapSet b.arrHeap r' filtered,
            eventsM := mapSet b.eventsM eventType r', nextArr := r' + 1 }

/-- An invocation record of the machine: the emission task that delivered,
the listener entry, its callback, and whether it was a wildcard delivery. -/
structure MInv where
  task : Nat
  lid : Nat
  callback : Nat
  wildcard : Bool
deriving DecidableEq, Repr

/-- The resumption point of a suspended emission: index `i` of the regular
`for...of` loop, or the wildcard loop over the `Set` object `sref` captured
when that loop started. -/
inductive EmitPhase where
  | regular (i : Nat)
  | wildcard (sref : Nat) (i : Nat)
deriving DecidableEq, Repr

/-- A suspended `emit` call: its arguments, the envelope id, the array object
it iterates (`none` when the bucket was absent and `|| []` supplied a fresh
empty array no other code can reach), and its local accumulators. -/
structure EmitTask where
  etype : String
  data : JVal
  eid : Nat
  arrRef : Option Nat
  results : List Nat
  errs : List (Nat × String)
  toRemove : List Nat
  phase : EmitPhase
deriving DecidableEq, Repr

/-- Outcome of running a task for one step: suspended again at an `await`,
or the `emit` body finished (reporting whether any listener errored, which
decides the diagnostic re-emission). -/
inductive StepRes where
  | suspended (t : EmitTask)
  | completed (hasErrors : Bool)
deriving DecidableEq, Repr

/-- Scan of the wildcard loop from absolute index `i` over the part of the
set not yet visited: non-matching entries are skipped without suspending, so
a single step lands on the next matching listener, if any. -/
def wcFind (etype : String) : List WListener → Nat → Option (Nat × WListener)
  | [], _ => none
  | w :: ws, i =>
      if matchesWildcard (JVal.vstr etype) w.pattern then some (i, w)
      else wcFind etype ws (i + 1)

/-- One resumption of the wildcard loop: re-read the captured `Set` object,
skip to the next matching listener and invoke it inside its try/catch, or
finish the `emit` body when none remains. -/
def wcStep (beh : Behavior) (tid : Nat) (bus : EventBusM) (t : EmitTask)
    (sref i : Nat) : EventBusM × List MInv × StepRes :=
  let ws := (mapGet bus.wcHeap sref).getD []
  match wcFind t.etype (ws.drop i) i with
  | none => (bus, [], .completed (!t.errs.isEmpty))
  | some (k, w) =>
      match beh w.callback ⟨.vstr t.etype, t.data, t.eid⟩ with
      | .ok v =>
          (bus, [⟨tid, w.id, w.callback, true⟩],
            .suspended { t with
              results := t.results ++ [v],
              phase := .wildcard sref (k + 1) })
      | .error e =>
          (bus, [⟨tid, w.id, w.callback, true⟩],
            .suspended { t with
              errs := t.errs ++ [(w.id, e)],
              phase := .wildcard sref (k + 1) })

/-- Run a suspended emission for one step.  In the regular phase the live
array is re-read through the task's reference; if an element remains at the
loop index it is invoked (collecting its result, error, and once-flag) and
the task suspends at the `await`.  When the loop is over, the collected
once-listeners are removed — `filter` over the live array builds a fresh
array and `events.set` repoints the bucket (deleting it when emptied) — then
the wildcard loop captures the current `Set` object and proceeds. -/
def advanceEmit (beh : Behavior) (tid : Nat) (bus : EventBusM)
    (t : EmitTask) : EventBusM × List MInv × StepRes :=
  match t.phase with
  | .regular i =>
      let arr := match t.arrRef with
        | none => []
        | some r => (mapGet bus.arrHeap r).getD []
      match arr.drop i with
      | l :: _ =>
          match beh l.callback ⟨.vstr t.etype, t.data, t.eid⟩ with
          | .ok v =>
              (bus, [⟨tid, l.id, l.callback, false⟩],
                .suspended { t with
                  results := t.results ++ [v],
                  toRemove :=
                    if l.once then t.toRemove ++ [l.id] else t.toRemove,
                  phase := .regular (i + 1) })
          | .error e =>
              (bus, [⟨tid, l.id, l.callback, false⟩],
                .suspended { t with
                  errs := t.errs ++ [(l.id, e)],
                  phase := .regular (i + 1) })
      | [] =>
          let bus1 :=
            if t.toRemove.isEmpty then bus
            else match t.arrRef with
              | none => bus
              | some r =>
                  let cur := (mapGet bus.arrHeap r).getD []
                  let remaining :=
                    cur.filter (fun l => !(t.toRemove.contains l.id))
                  if remaining.isEmpty then
                    { bus with eventsM := mapDelete bus.eventsM t.etype }
                  else
                    let r' := bus.nextArr
                    { bus with
                      arrHeap := mapSet bus.arrHeap r' remaining,
                      eventsM := mapSet bus.eventsM t.etype r',
                      nextArr := r' + 1 }
          wcStep beh tid bus1 t bus1.wcRef 0
  | .wildcard sref i => wcStep beh tid bus t sref i

/-- The whole cooperative system: the bus, the suspended emission tasks, the
ghost invocation log, and the task id counter. -/
structure MState where
  bus : EventBusM
  tasks : List (Nat × EmitTask)
  logM : List MInv
  nextTask : Nat
deriving DecidableEq, Repr

/-- The initial system: a fresh bus and no in-flight emission. -/
def MState.empty : MState :=
  { bus := EventBusM.empty, tasks := [], logM := [], nextTask := 0 }

/-- A call of `emit(etype, data)`: the synchronous prefix appends the
envelope to the bounded history, reads the bucket reference, and runs the
body up to its first `await` (invoking the first listener).  An emission
that completes within this prefix invoked no listener, hence collected no
errors and never spawns a diagnostic emission. -/
def startEmitM (beh : Behavior) (st : MState) (etype : String) (data : JVal) :
    MState :=
  let bus := st.bus
  let ed : EventData := ⟨.vstr etype, data, bus.nextEid⟩
  let hist1 := bus.historyM ++ [ed]
  let hist2 := if maxHistorySize < hist1.length then hist1.drop 1 else hist1
  let bus1 := { bus with historyM := hist2, nextEid := bus.nextEid + 1 }
  let t0 : EmitTask := {
    etype := etype, data := data, eid := ed.id,
    arrRef := mapGet bus1.eventsM etype, results := [], errs := [],
    toRemove := [], phase := .regular 0 }
  let tid := st.nextTask
  let (bus2, lg, res) := advanceEmit beh tid bus1 t0
  match res with
  | .suspended t' =>
      { st with
        bus := bus2, logM := st.logM ++ lg,
        tasks := st.tasks ++ [(tid, t')], nextTask := tid + 1 }
  | .completed _ =>
      { st with bus := bus2, logM := st.logM ++ lg, nextTask := tid + 1 }

/-- Resume the suspended emission `tid` for one step.  On completion the
task is dropped and, if any listener errored and the event was not itself
`system:error`, the secondary `system:error` emission starts synchronously
(and, being `system:error`, can never spawn another). -/
def doStepM (beh : Behavior) (st : MState) (tid : Nat) : MState :=
  match mapGet st.tasks tid with
  | none => st
  | some t =>
      let (bus', lg, res) := advanceEmit beh tid st.bus t
      match res with
      | .suspended t' =>
          { st with
            bus := bus', logM := st.logM ++ lg,
            tasks := mapSet st.tasks tid t' }
      | .completed hasErr =>
          let st1 := { st with
            bus := bus', logM := st.logM ++ lg,
            tasks := mapDelete st.tasks tid }
          if hasErr && t.etype != "system:error" then
            startEmitM beh st1 "system:error" (.vstr "listener-error-report")
          else st1

/-- The operations callers may interleave: subscribe, unsubscribe, start an
emission, or let a suspended emission resume for one step. -/
inductive MAct where
  | subM (etype : String) (cb : Nat) (priority : Int) (once : Bool)
  | unsubM (etype : String) (cb : Nat)
  | emitM (etype : String) (data : JVal)
  | stepM (tid : Nat)
deriving DecidableEq, Repr

/-- Perform one operation.  `on` and `off` are synchronous: they run to
completion within the action. -/
def doActM (beh : Behavior) (st : MState) : MAct → MState
  | .subM et cb p o => { st with bus := st.bus.onM et cb p o }
  | .unsubM et cb => { st with bus := st.bus.offM et cb }
  | .emitM et d => startEmitM beh st et d
  | .stepM tid => doStepM beh st tid

/-- Run a schedule of operations. -/
def runM (beh : Behavior) : MState → List MAct → MState
  | st, [] => st
  | st, a :: rest => runM beh (doActM beh st a) rest

/-!
## The `ModuleLoader`

`loadModule` serves an already-loaded module from `loadedModules`, joins an
in-flight load through `loadingPromises` (single-flight), and otherwise runs
`_doLoadModule`: get the module class (cached, else "load the file", which in
the source always produces a mock class), instantiate it, validate the
instance's interface, load its declared dependencies depth-first, and
register it with the core, whose `registerModule` runs the `init` hook and
catches its errors, returning a boolean the loader ignores.

A single top-level `load` call executes as one sequential chain: every timer
it awaits fires with no other task runnable, so the cooperative execution is
the recursive function below, structural in a fuel bound.  One branch needs a
global argument: when the requested name is already in `loadingNames`, the
source awaits `loadingPromises.get(name)`.  Within a single chain that
promise belongs to an ancestor stack frame, and it settles only after the
current frame returns, so the await never completes and the scheduler goes
quiescent with the load pending forever; this is the `.stuck` outcome.  The
`finally` of a frame suspended forever never runs, so its `loadingNames`
entry is never cleaned up.

The loader's `_validateModuleInterface` and the core's
`validateModuleInterface` perform the same checks (required members `name`,
`version`, `init`, `getAPI`; `init` and `getAPI` functions), so one predicate
`ModSpec.valid` models both.  The `core:module-registered` event emission is
modelled with the `VaultCore` component below, not here.
-/

/-- Ghost trace of the observable lifecycle steps: `new ModuleClass()`
(`instantiated`), the call of the instance's `init` hook inside
`core.registerModule` (`inited`), and insertion into `loadedModules`
(`marked`, the loader's notion of an active module). -/
inductive TEv where
  | instantiated (name : String)
  | inited (name : String)
  | marked (name : String)
deriving DecidableEq, Repr

/-- The environment of module definitions: for each module name, its declared
dependency list, whether its instances pass interface validation, whether its
`init` hook resolves (rather than throws), and whether its `getAPI()` result
is truthy. -/
structure ModSpec where
  deps : String → List String
  valid : String → Bool
  initOk : String → Bool
  apiTruthy : String → Bool

/-- The loader/core registries threaded through a load: the module-class
cache, `loadedModules`, the domain of `loadingPromises`, the core's `modules`
and `apis` registries, the ghost trace, and the instance counter. -/
structure LState where
  moduleCache : List String
  loadedModules : List (String × Nat)
  loadingNames : List String
  coreModules : List String
  coreApis : List String
  trace : List TEv
  nextInst : Nat
deriving DecidableEq, Repr

/-- Fresh registries. -/
def LState.start : LState :=
  { moduleCache := [], loadedModules := [], loadingNames := [],
    coreModules := [], coreApis := [], trace := [], nextInst := 0 }

/-- The errors a load can throw.  `Invalid module interface: name` is the
only throw site reachable in the model (file loading always succeeds in the
source); in particular no dependency-cycle error exists anywhere in the
source. -/
inductive LErr where
  | invalidInterface (name : String)
deriving DecidableEq, Repr

/-- Outcome of a `loadModule` call: resolved with the instance, rejected with
a thrown error, suspended forever on an ancestor's in-flight promise
(`stuck`), or out of fuel. -/
inductive LRes where
  | ok (inst : Nat)
  | error (e : LErr)
  | stuck
  | fuelOut
deriving DecidableEq, Repr

/-- Outcome of the `_loadDependencies` loop. -/
inductive DepRes where
  | okDeps
  | errorDeps (e : LErr)
  | stuckDeps
  | fuelOutDeps
deriving DecidableEq, Repr

/-- `VaultCore.registerModule(name, module)` as the loader reaches it: skip
when already registered, validate the interface (an invalid one throws, the
catch turns it into `false`), run `init` (a throw is caught into `false`),
then store the module and its API.  Event emission is not modelled here. -/
def coreRegisterModule (spec : ModSpec) (st : LState) (name : String)
    (_inst : Nat) : Bool × LState :=
  if st.coreModules.contains name then (false, st)
  else if !spec.valid name then (false, st)
  else
    let st1 := { st with trace := st.trace ++ [.inited name] }
    if spec.initOk name then
      let st2 := { st1 with
        coreModules := st1.coreModules ++ [name],
        coreApis :=
          if spec.apiTruthy name then st1.coreApis ++ [name]
          else st1.coreApis }
      (true, st2)
    else (false, st1)

/-- `ModuleLoader._loadDependencies`: walk the declared dependency names in
order; `'core'` and already-loaded names are skipped, anything else is loaded
through the supplied (recursive) load function, and a failure aborts the loop
and propagates. -/
def loadDependencies (loadFn : LState → String → LRes × LState) :
    LState → List String → DepRes × LState
  | st, [] => (.okDeps, st)
  | st, d :: rest =>
      if d == "core" || (mapGet st.loadedModules d).isSome then
        loadDependencies loadFn st rest
      else
        match loadFn st d with
        | (.ok _, st') => loadDependencies loadFn st' rest
        | (.error e, st') => (.errorDeps e, st')
        | (.stuck, st') => (.stuckDeps, st')
        | (.fuelOut, st') => (.fuelOutDeps, st')

/-- `ModuleLoader._doLoadModule`: get the class (cache it on a miss),
instantiate it, validate the instance (an invalid interface throws), load its
dependencies, then register with the core — whose boolean result the source
ignores — and resolve with the instance. -/
def doLoadModule (spec : ModSpec) (loadFn : LState → String → LRes × LState)
    (st : LState) (name : String) : LRes × LState :=
  let st0 :=
    if st.moduleCache.contains name then st
    else { st with moduleCache := st.moduleCache ++ [name] }
  let inst := st0.nextInst
  let st1 := { st0 with
    nextInst := inst + 1, trace := st0.trace ++ [.instantiated name] }
  if !spec.valid name then (.error (.invalidInterface name), st1)
  else
    match loadDependencies loadFn st1 (spec.deps name) with
    | (.okDeps, st2) => (.ok inst, (coreRegisterModule spec st2 name inst).2)
    | (.errorDeps e, st2) => (.error e, st2)
    | (.stuckDeps, st2) => (.stuck, st2)
    | (.fuelOutDeps, st2) => (.fuelOut, st2)

/-- `ModuleLoader.loadModule(name)` for a single top-level call chain.
Already loaded: resolve with the cached instance.  In flight: await the
ancestor's promise, which never settles (`stuck`).  Otherwise record the
in-flight entry, run `_doLoadModule`; on success store the instance in
`loadedModules` (marking it active) and resolve, and in success and thrown
failure alike the `finally` removes the in-flight entry. -/
def loadModule (spec : ModSpec) : Nat → LState → String → LRes × LState
  | 0, st, _ => (.fuelOut, st)
  | fuel + 1, st, name =>
      match mapGet st.loadedModules name with
      | some inst => (.ok inst, st)
      | none =>
          if st.loadingNames.contains name then (.stuck, st)
          else
            let st1 := { st with loadingNames := st.loadingNames ++ [name] }
            match doLoadModule spec (loadModule spec fuel) st1 name with
            | (.ok inst, st2) =>
                (.ok inst,
                  { st2 with
                    loadedModules := st2.loadedModules ++ [(name, inst)],
                    loadingNames := st2.loadingNames.erase name,
                    trace := st2.trace ++ [.marked name] })
            | (.error e, st2) =>
                (.error e,
                  { st2 with loadingNames := st2.loadingNames.erase name })
            | (.stuck, st2) => (.stuck, st2)
            | (.fuelOut, st2) => (.fuelOut, st2)

/-- The outcome of two concurrent `load(name)` calls: what each caller
resolves or rejects with, and the final registries. -/
structure TwoOut where
  resA : LRes
  resB : LRes
  final : LState
deriving DecidableEq, Repr

/-- Two `load(name)` calls issued before either settles, run cooperatively.
Caller A's synchronous prefix finds the module neither loaded nor in flight,
creates the `_doLoadModule` promise and records it in `loadingPromises`.
Caller B's prefix runs at some point while that operation is in flight; it
only reads `loadedModules` (which gains `name` only when A settles) and
`loadingPromises` (which holds `name` throughout), so wherever it lands it
takes the single-flight branch and awaits A's promise.  The underlying
operation then runs to completion as a sequential chain; A resumes first
(its continuation was queued first), marks the module loaded and lets its
`finally` drop the in-flight entry, and B resolves or rejects with the same
settled value.  If a pre-existing in-flight load for `name` (owned by a
caller outside this scenario) exists, both calls await a promise this
scenario cannot settle, which is reported as `stuck`. -/
def runTwoLoads (spec : ModSpec) (fuel : Nat) (st : LState) (name : String) :
    TwoOut :=
  match mapGet st.loadedModules name with
  | some inst => ⟨.ok inst, .ok inst, st⟩
  | none =>
      if st.loadingNames.contains name then ⟨.stuck, .stuck, st⟩
      else
        let st1 := { st with loadingNames := st.loadingNames ++ [name] }
        match doLoadModule spec (loadModule spec fuel) st1 name with
        | (.ok inst, st2) =>
            ⟨.ok inst, .ok inst,
              { st2 with
                loadedModules := st2.loadedModules ++ [(name, inst)],
                loadingNames := st2.loadingNames.erase name,
                trace := st2.trace ++ [.marked name] }⟩
        | (.error e, st2) =>
            ⟨.error e, .error e,
              { st2 with loadingNames := st2.loadingNames.erase name }⟩
        | (.stuck, st2) => ⟨.stuck, .stuck, st2⟩
        | (.fuelOut, st2) => ⟨.fuelOut, .fuelOut, st2⟩

/-!
## The `VaultCore` orchestrator: `registerModule`

For claim C9 the orchestrator's own registries are modelled directly.  A
module instance is characterised by the structural facts
`validateModuleInterface` inspects and by the behaviour of its hooks.
`init` is modelled as pure with respect to the core (it does not re-enter
the orchestrator). -/

/-- The structural surface of a module instance and the outcome of its
hooks. -/
structure JSModule where
  hasName : Bool
  hasVersion : Bool
  hasInit : Bool
  hasGetAPI : Bool
  initIsFunction : Bool
  getAPIIsFunction : Bool
  initThrows : Bool
  getAPIThrows : Bool
  apiTruthy : Bool
deriving DecidableEq, Repr

/-- `VaultCore.validateModuleInterface`: the four required members exist and
`init` and `getAPI` are functions. -/
def validateModuleInterface (m : JSModule) : Bool :=
  m.hasName && m.hasVersion && m.hasInit && m.hasGetAPI &&
    m.initIsFunction && m.getAPIIsFunction

/-- The orchestrator's registries. -/
structure VaultCore where
  modules : List (String × JSModule)
  apis : List String
deriving DecidableEq, Repr

/-- `VaultCore.registerModule(name, module)`: returns the success boolean,
the updated registries, and the list of event types emitted.  Failed
validation and a throwing `init` hook are caught and reported as `false`;
both occur before any registry write.  (A throwing `getAPI` is also caught
into `false`, but only after `modules.set` has already run.) -/
def VaultCore.registerModule (st : VaultCore) (name : String) (m : JSModule) :
    Bool × VaultCore × List String :=
  if (mapGet st.modules name).isSome then (false, st, [])
  else if !validateModuleInterface m then (false, st, [])
  else if m.initThrows then (false, st, [])
  else
    let st1 := { st with modules := mapSet st.modules name m }
    if m.getAPIThrows then (false, st1, [])
    else
      let st2 :=
        if m.apiTruthy then { st1 with apis := st1.apis ++ [name] } else st1
      (true, st2, ["core:module-registered"])

/-!
## Auxiliary predicates, counters, and concrete fixtures used by the theorems
-/

/-- The intended bucket order: strictly higher priority first, registration
order (increasing listener id) within equal priority. -/
def listenerOrdered (a b : Listener) : Prop :=
  b.priority < a.priority ∨ (a.priority = b.priority ∧ a.id < b.id)

/-- Well-formedness of a bus: every bucket is sorted by descending priority
with ties in registration order and contains only already-issued ids, and
the wildcard set is in registration order. -/
def WFBus (b : EventBus) : Prop :=
  (∀ k arr, (k, arr) ∈ b.events →
    arr.Pairwise listenerOrdered ∧ ∀ l ∈ arr, l.id < b.nextListenerId) ∧
  b.wildcardListeners.Pairwise (fun a c => a.id < c.id) ∧
  (∀ w ∈ b.wildcardListeners, w.id < b.nextListenerId)

/-- The buses reachable from a fresh `EventBus` by the public operations
(with emissions run to completion, i.e. without overlap). -/
inductive ReachableBus : EventBus → Prop where
  | start : ReachableBus EventBus.empty
  | subStep {b : EventBus} (et : String) (cb : Nat) (p : Int) (o : Bool) :
      ReachableBus b → ReachableBus (b.on et cb p o)
  | unsubStep {b : EventBus} (et : String) (cb : Nat) :
      ReachableBus b → ReachableBus (b.off et cb)
  | emitStep {b : EventBus} (beh : Behavior) (t d : JVal) :
      ReachableBus b → ReachableBus (EventBus.emit beh b t d).bus

/-- Number of invocations of the listener entry `lid` recorded in a log. -/
def invCount (log : List InvRec) (lid : Nat) : Nat :=
  (log.filter (fun r => r.lid == lid)).length

/-- Number of registry entries carrying the listener id `lid` (bucket
entries across all patterns plus wildcard entries). -/
def busLidOcc (b : EventBus) (lid : Nat) : Nat :=
  (b.events.map (fun ka => ka.2.countP (fun l => l.id == lid))).sum +
    b.wildcardListeners.countP (fun w => w.id == lid)

/-- The pattern keys of the exact registry are distinct (true of every real
bus, since `on` creates at most one bucket per pattern). -/
def NodupKeys (b : EventBus) : Prop := (b.events.map Prod.fst).Nodup

/-- Every registry entry with id `lid` is once-flagged with callback `cb0`,
`lid` is not a wildcard entry, and `cb0` never throws under `beh`. -/
def OnceEntry (beh : Behavior) (b : EventBus) (lid cb0 : Nat) : Prop :=
  (∀ k arr, (k, arr) ∈ b.events → ∀ l ∈ arr, l.id = lid →
    l.once = true ∧ l.callback = cb0) ∧
  (∀ w ∈ b.wildcardListeners, w.id ≠ lid) ∧
  (∀ ed, ∃ v, beh cb0 ed = Except.ok v)

/-- Machine-log restriction to the exact-phase deliveries of one emission. -/
def exactLog (tid : Nat) (log : List MInv) : List MInv :=
  log.filter (fun r => r.task == tid && !r.wildcard)

/-- Schedules in which the only operations besides resumptions of the
emission `tid` are unsubscribe calls. -/
def OffOnly (tid : Nat) (acts : List MAct) : Prop :=
  ∀ a ∈ acts, (∃ et cb, a = MAct.unsubM et cb) ∨ a = MAct.stepM tid

/-- The last `n` elements of a list. -/
def takeLast {α : Type} (n : Nat) (l : List α) : List α :=
  l.drop (l.length - n)

/-- The envelopes a sequence of emissions constructs, given the first event
id. -/
def envsFrom (startId : Nat) : List (JVal × JVal) → List EventData
  | [] => []
  | (t, d) :: rest => ⟨t, d, startId⟩ :: envsFrom (startId + 1) rest

/-- The dependency-activation invariant: every loaded module has every
declared dependency other than `'core'` loaded as well. -/
def DepInv (spec : ModSpec) (st : LState) : Prop :=
  ∀ p ∈ st.loadedModules, ∀ d ∈ spec.deps p.1, d ≠ "core" →
    (mapGet st.loadedModules d).isSome = true

/-- A behaviour whose callbacks all succeed, returning their own id. -/
def beh0 : Behavior := fun cb _ => .ok cb

/-- A behaviour under which callback `9` throws and all others succeed. -/
def behBoom : Behavior := fun cb _ => if cb == 9 then .error "boom" else .ok cb

/-- A bus with a once-listener (id 0, callback 7) on `"x"`. -/
def busOnceX : EventBus := EventBus.empty.onceSub "x" 7 0

/-- A bus with a once-listener (id 0) on `"x"` whose callback `9` throws
under `behBoom`. -/
def busOnceBoom : EventBus := EventBus.empty.onceSub "x" 9 0

/-- The machine state with the same once-listener on `"x"`. -/
def mOnceX : MState :=
  { MState.empty with bus := EventBusM.empty.onM "x" 7 0 true }

/-- The machine state with one plain listener (id 0, callback 5) on `"x"`. -/
def mSubX : MState :=
  { MState.empty with bus := EventBusM.empty.onM "x" 5 0 false }

/-- Listeners L2 (callback 2, priority 5) then L1 (callback 1, priority 10)
registered on `"note:added"`: the spec's priority example. -/
def busL1L2 : EventBus :=
  (EventBus.empty.on "note:added" 2 5 false).on "note:added" 1 10 false

/-- A single universal wildcard listener (callback 3). -/
def busWc : EventBus := EventBus.empty.on "*" 3 0 false

/-- A throwing listener (callback 9) registered before a succeeding one
(callback 5) on `"x"`. -/
def busBoomThen5 : EventBus :=
  (EventBus.empty.on "x" 9 0 false).on "x" 5 0 false

/-- Callback 5 subscribed twice and callback 6 once on `"x"`. -/
def busF2G : EventBus :=
  ((EventBus.empty.on "x" 5 0 false).on "x" 5 0 false).on "x" 6 0 false

/-- Callback 5 subscribed once on `"x"` and once on `"y"`. -/
def busOnlyF : EventBus :=
  (EventBus.empty.on "x" 5 0 false).on "y" 5 0 false

/-- A bus whose history holds exactly one envelope. -/
def busH1 : EventBus :=
  (EventBus.emit beh0 EventBus.empty (JVal.vstr "a") (JVal.vnum 0)).bus

/-- 101 distinct events. -/
def evs101 : List (JVal × JVal) :=
  (List.range 101).map (fun i => (JVal.vnum i, JVal.vnum 0))

/-- Module universe for the dependency example: A depends on B. -/
def specAB : ModSpec where
  deps := fun n => if n = "A" then ["B"] else []
  valid := fun _ => true
  initOk := fun _ => true
  apiTruthy := fun _ => true

/-- Module universe with the cycle C → D → C. -/
def specCD : ModSpec where
  deps := fun n => if n = "C" then ["D"] else if n = "D" then ["C"] else []
  valid := fun _ => true
  initOk := fun _ => true
  apiTruthy := fun _ => true

/-- Module universe in which every instance fails interface validation. -/
def specBad : ModSpec where
  deps := fun _ => []
  valid := fun _ => false
  initOk := fun _ => true
  apiTruthy := fun _ => true

/-- A module instance satisfying the full required surface. -/
def goodMod : JSModule :=
  ⟨true, true, true, true, true, true, false, false, true⟩

/-- A module instance missing the `init` member. -/
def badMod : JSModule :=
  ⟨true, true, false, true, true, true, false, false, true⟩

/-- A well-formed module instance whose `init` hook throws. -/
def throwMod : JSModule :=
  ⟨true, true, true, true, true, true, true, false, true⟩

/-- One history append of `emit`: push the envelope, then shift the oldest
once the length exceeds `maxHistorySize`. -/
def pushCap (h : List EventData) (e : EventData) : List EventData :=
  let h1 := h ++ [e]
  if maxHistorySize < h1.length then h1.drop 1 else h1

/-- Iterated history appends. -/
def histFold (h : List EventData) : List EventData → List EventData
  | [] => h
  | e :: es => histFold (pushCap h e) es

/-- Machine-log restriction to all deliveries of the emission task `tid`,
wildcard deliveries included. -/
def taskLog (tid : Nat) (log : List MInv) : List MInv :=
  log.filter (fun r => r.task == tid)

/-- Relation between two machine buses holding the same in-flight emission:
the array object the emission iterates (if any) has the same contents and a
heap id below both allocation counters, and the wildcard side (heap, current
`Set` reference, `Set` counter) is identical. -/
def BusRel (aref : Option Nat) (b1 b2 : EventBusM) : Prop :=
  (∀ r, aref = some r → mapGet b1.arrHeap r = mapGet b2.arrHeap r ∧
    r < b1.nextArr ∧ r < b2.nextArr) ∧
  b1.wcHeap = b2.wcHeap ∧ b1.wcRef = b2.wcRef ∧ b1.nextSet = b2.nextSet

/-- Simulation between a run receiving unsubscribe calls and a run without
them: the deliveries of the emission `tid` logged so far agree, `tid` is
below both task counters, and either the single suspended task is identical
on both sides with `BusRel`-related buses, or the task has completed on both
sides. -/
def OffSim (tid : Nat) (st1 st2 : MState) : Prop :=
  taskLog tid st1.logM = taskLog tid st2.logM ∧
  tid < st1.nextTask ∧ tid < st2.nextTask ∧
  ((∃ t, st1.tasks = [(tid, t)] ∧ st2.tasks = [(tid, t)] ∧
      BusRel t.arrRef st1.bus st2.bus) ∨
    (mapGet st1.tasks tid = none ∧ mapGet st2.tasks tid = none))

/-!
## Shared lemmas about the association-list maps
-/

theorem mapGet_mapSet_self {κ α : Type} [DecidableEq κ]
    (m : List (κ × α)) (k : κ) (v : α) : mapGet (mapSet m k v) k = some v := by
  induction m with
  | nil => simp [mapSet, mapGet]
  | cons p rest ih =>
      obtain ⟨k', v'⟩ := p
      by_cases hk : k' = k
      · simp [mapSet, hk, mapGet]
      · simp [mapSet, hk, mapGet, ih]

theorem mapGet_mapSet_ne {κ α : Type} [DecidableEq κ]
    (m : List (κ × α)) (k k' : κ) (v : α) (h : k ≠ k') :
    mapGet (mapSet m k v) k' = mapGet m k' := by
  induction m with
  | nil => simp [mapSet, mapGet, h]
  | cons p rest ih =>
      obtain ⟨k0, v0⟩ := p
      by_cases hk : k0 = k
      · simp [mapSet, hk, mapGet, h]
      · simp [mapSet, hk, mapGet, ih]

theorem mapGet_mapDelete_self {κ α : Type} [DecidableEq κ]
    (m : List (κ × α)) (k : κ) : mapGet (mapDelete m k) k = none := by
  induction m with
  | nil => simp [mapDelete, mapGet]
  | cons p rest ih =>
      obtain ⟨k0, v0⟩ := p
      by_cases hk : k0 = k
      · simpa [mapDelete, hk] using ih
      · simpa [mapDelete, hk, mapGet] using ih

theorem mapGet_mapDelete_ne {κ α : Type} [DecidableEq κ]
    (m : List (κ × α)) (k k' : κ) (h : k ≠ k') :
    mapGet (mapDelete m k) k' = mapGet m k' := by
  induction m with
  | nil => simp [mapDelete, mapGet]
  | cons p rest ih =>
      obtain ⟨k0, v0⟩ := p
      by_cases hk : k0 = k
      · subst hk
        have hne : k0 ≠ k' := h
        simp only [mapDelete, ne_eq, decide_not] at ih ⊢
        simp [mapGet, hne, ih]
      · simp only [mapDelete, ne_eq, decide_not] at ih ⊢
        simp only [List.filter_cons, hk, decide_eq_true_eq, if_neg]
        simp [mapGet, ih]

theorem mapSet_mem {κ α : Type} [DecidableEq κ]
    (m : List (κ × α)) (k : κ) (v : α) (p : κ × α)
    (h : p ∈ mapSet m k v) : p = (k, v) ∨ p ∈ m := by
  induction m with
  | nil => simpa [mapSet] using h
  | cons q rest ih =>
      obtain ⟨k0, v0⟩ := q
      by_cases hk : k0 = k
      · simp [mapSet, hk] at h
        rcases h with h | h
        · exact Or.inl (by simp [h])
        · exact Or.inr (by simp [h])
      · simp [mapSet, hk] at h
        rcases h with h | h
        · exact Or.inr (by simp [h])
        · rcases ih h with h' | h'
          · exact Or.inl h'
          · exact Or.inr (by simp [h'])

theorem mapDelete_mem {κ α : Type} [DecidableEq κ]
    (m : List (κ × α)) (k : κ) (p : κ × α)
    (h : p ∈ mapDelete m k) : p ∈ m :=
  List.mem_of_mem_filter h

/-!
## Claim theorems
-/

/-- C9: if `registerModule(name, instance)` fails capability-surface
validation or the instance's `init` hook throws, the call reports failure
(`false`), leaves the module registry and the API registry unchanged, stores
nothing, publishes no API, and emits no `module-registered` event. -/
theorem registerModule_failure_leaves_registries_unchanged
    (st : VaultCore) (name : String) (m : JSModule)
    (h : validateModuleInterface m = false ∨ m.initThrows = true) :
    VaultCore.registerModule st name m = (false, st, []) := by
  unfold VaultCore.registerModule
  by_cases hs : (mapGet st.modules name).isSome = true
  · simp [hs]
  · rcases h with h | h
    · simp [hs, h]
    · by_cases hv : validateModuleInterface m
      · simp [hs, hv, h]
      · simp [hs, hv]

/-- Witness for C9 at a concrete failing module: `badMod` lacks the `init`
member, so registration fails with no state change and no emission. -/
theorem registerModule_failure_leaves_registries_unchanged_witness :
    (validateModuleInterface badMod = false ∨ badMod.initThrows = true) ∧
    VaultCore.registerModule ⟨[], []⟩ "notes" badMod = (false, ⟨[], []⟩, []) :=
  ⟨Or.inl (by decide),
    registerModule_failure_leaves_registries_unchanged ⟨[], []⟩ "notes" badMod
      (Or.inl (by decide))⟩

/-- C10: for an exact pattern `P`, one `off(P, f)` call removes every
listener on `P` whose callback is `f` (all subscriptions of `f` at once,
other listeners kept in order), and the bucket for `P` is deleted from the
registry when no listener remains. -/
theorem off_removes_all_matching_and_deletes_empty_bucket
    (b : EventBus) (P : String) (f : Nat) (h : includesStar P = false) :
    mapGet (b.off P f).events (JVal.vstr P) =
      match mapGet b.events (JVal.vstr P) with
      | none => none
      | some arr =>
          if (arr.filter (fun l => l.callback != f)).isEmpty then none
          else some (arr.filter (fun l => l.callback != f)) := by
  unfold EventBus.off
  rw [h]
  cases hb : mapGet b.events (JVal.vstr P) with
  | none => simp [hb]
  | some arr =>
      by_cases he : (arr.filter (fun l => l.callback != f)).isEmpty
      · simp [hb, he, mapGet_mapDelete_self]
      · simp [hb, he, mapGet_mapSet_self]

/-- Witness for C10: callback 5 was subscribed twice to `"x"` (with callback
6 once); a single `off("x", 5)` removes both of its entries, keeping 6; and
on the bus where `"x"` holds only callback 5, `off("x", 5)` deletes the
bucket. -/
theorem off_removes_all_matching_and_deletes_empty_bucket_witness :
    includesStar "x" = false ∧
    (mapGet (busF2G.off "x" 5).events (JVal.vstr "x") =
      match mapGet busF2G.events (JVal.vstr "x") with
      | none => none
      | some arr =>
          if (arr.filter (fun l => l.callback != 5)).isEmpty then none
          else some (arr.filter (fun l => l.callback != 5))) ∧
    mapGet (busF2G.off "x" 5).events (JVal.vstr "x") =
      some [⟨2, 6, false, 0⟩] ∧
    mapGet (busOnlyF.off "x" 5).events (JVal.vstr "x") = none :=
  ⟨by decide,
    off_removes_all_matching_and_deletes_empty_bucket busF2G "x" 5 (by decide),
    by decide, by decide⟩

/-- C5 counterexample: with the cyclic universe C → D → C, `load("C")` does
not settle at all — in particular it does not reject with a dependency
error.  The inner `load("C")` awaits the in-flight promise of its own
ancestor, which settles only after the inner call returns, so the chain is
stuck and the stale in-flight entries for C and D are never cleaned up.  The
source constructs no `DependencyError` anywhere (`LErr` has only the
interface-validation error, the sole reachable throw site). -/
theorem cyclic_load_hangs_not_dependency_error :
    (loadModule specCD 100 LState.start "C").1 = LRes.stuck ∧
    (loadModule specCD 100 LState.start "C").2.loadingNames = ["C", "D"] := by
  constructor <;> rfl

/-- C5 amended: for every fuel bound that lets the chain reach the cycle
(three nested `loadModule` frames), `load("C")` on the cyclic universe
C → D → C ends stuck on an ancestor's in-flight promise — it never settles,
so it neither rejects with any error nor terminates. -/
theorem cyclic_load_never_settles :
    ∀ f : Nat, (loadModule specCD (f + 3) LState.start "C").1 = LRes.stuck :=
  fun _ => rfl

/-- C8 counterexample: `getHistory(0)` is `slice(-0)`, i.e. `slice(0)`: on a
bus whose history holds one envelope it returns that envelope, not the most
recent zero envelopes. -/
theorem getHistory_zero_returns_whole_buffer :
    busH1.getHistory 0 = busH1.eventHistory ∧
    (busH1.getHistory 0).length = 1 := by
  constructor <;> rfl

/-- C6 counterexample: `emit` performs no input validation, so a publish
with the non-string type `42` does not reject: it is processed normally —
the envelope joins the history and the universal wildcard listener receives
the event (the regex test coerces `42` to `"42"`), so the call resolves with
that listener's result. -/
theorem emit_nonstring_type_resolves :
    (EventBus.emit beh0 busWc (JVal.vnum 42) (JVal.vnum 0)).results = [3] ∧
    (EventBus.emit beh0 busWc (JVal.vnum 42) (JVal.vnum 0)).errors = [] ∧
    (EventBus.emit beh0 busWc (JVal.vnum 42) (JVal.vnum 0)).bus.eventHistory =
      [⟨JVal.vnum 42, JVal.vnum 0, 0⟩] := by
  refine ⟨rfl, rfl, rfl⟩

/-- C1 counterexample: a once-listener on `"x"` and two emissions of `"x"`
started back-to-back without an intervening suspension.  The first emission
invokes the listener and suspends at the `await`; removal happens only after
its loop finishes, so the second emission still finds the listener in the
live bucket and invokes it again: two invocations in total. -/
theorem once_listener_double_delivery_on_overlap :
    ((runM beh0 mOnceX
        [MAct.emitM "x" (JVal.vnum 0), MAct.emitM "x" (JVal.vnum 1)]).logM.filter
      (fun r => r.lid == 0)).length = 2 := by
  rfl

/-- C2 counterexample: one listener on `"x"`; an emission starts (invoking
it and suspending), then a subscribe on `"x"` runs, then the emission
resumes.  `on` pushes onto the very array object the in-flight emission
iterates, so the emission also invokes the listener subscribed after its
start: the same schedule without the subscribe delivers once, with it twice
— a concurrent subscribe changed an in-flight emission's invocation count. -/
theorem concurrent_subscribe_changes_inflight_emission :
    (exactLog 0 (runM beh0 mSubX
        [MAct.emitM "x" (JVal.vnum 0), MAct.subM "x" 6 0 false,
          MAct.stepM 0, MAct.stepM 0]).logM).length = 2 ∧
    (exactLog 0 (runM beh0 mSubX
        [MAct.emitM "x" (JVal.vnum 0), MAct.stepM 0, MAct.stepM 0]).logM).length = 1 := by
  constructor <;> rfl

/-!
## History lemmas (C8)
-/

theorem takeLast_of_le {α : Type} (n : Nat) (l : List α) (h : l.length ≤ n) :
    takeLast n l = l := by
  simp [takeLast, Nat.sub_eq_zero_of_le h]

theorem takeLast_length {α : Type} (n : Nat) (l : List α) :
    (takeLast n l).length = min n l.length := by
  simp [takeLast]; omega

theorem pushCap_takeLast (acc : List EventData) (e : EventData) :
    pushCap (takeLast maxHistorySize acc) e =
      takeLast maxHistorySize (acc ++ [e]) := by
  simp only [pushCap, takeLast, maxHistorySize, List.length_append,
    List.length_drop, List.length_singleton]
  by_cases h : acc.length ≤ 100
  · rw [Nat.sub_eq_zero_of_le h, List.drop_zero]
    by_cases h2 : 100 < acc.length + 1
    · have h3 : acc.length = 100 := by omega
      simp [h3]
    · rw [if_neg (by omega), Nat.sub_eq_zero_of_le (by omega), List.drop_zero]
  · push_neg at h
    rw [if_pos (by omega)]
    rw [List.drop_append_of_le_length (by simp; omega)]
    rw [List.drop_drop]
    rw [List.drop_append_of_le_length (by omega)]
    congr 2
    omega

theorem histFold_takeLast (es : List EventData) :
    ∀ acc : List EventData,
      histFold (takeLast maxHistorySize acc) es =
        takeLast maxHistorySize (acc ++ es) := by
  induction es with
  | nil => intro acc; simp [histFold]
  | cons e es ih =>
      intro acc
      simp only [histFold, pushCap_takeLast]
      rw [ih (acc ++ [e])]
      simp

theorem emitBody_bus_fields (beh : Behavior) (b : EventBus) (etype data : JVal) :
    ((EventBus.emitBody beh b etype data).bus.eventHistory =
        pushCap b.eventHistory ⟨etype, data, b.nextEventId⟩) ∧
    (EventBus.emitBody beh b etype data).bus.wildcardListeners =
      b.wildcardListeners ∧
    (EventBus.emitBody beh b etype data).bus.nextEventId = b.nextEventId + 1 ∧
    (EventBus.emitBody beh b etype data).bus.nextListenerId =
      b.nextListenerId := by
  dsimp only [EventBus.emitBody, pushCap]
  refine ⟨?_, ?_, ?_, ?_⟩ <;> (split <;> try split) <;> rfl

theorem emit_errors_eq (beh : Behavior) (b : EventBus) (etype data : JVal) :
    (EventBus.emit beh b etype data).errors =
      (EventBus.emitBody beh b etype data).errors := by
  dsimp only [EventBus.emit]
  split <;> rfl

theorem emit_history_no_errors (beh : Behavior) (b : EventBus)
    (etype data : JVal) (h : (EventBus.emit beh b etype data).errors = []) :
    (EventBus.emit beh b etype data).bus.eventHistory =
      pushCap b.eventHistory ⟨etype, data, b.nextEventId⟩ := by
  rw [emit_errors_eq] at h
  have : EventBus.emit beh b etype data = EventBus.emitBody beh b etype data := by
    dsimp only [EventBus.emit]
    rw [if_neg]
    simp [h]
  rw [this]
  exact (emitBody_bus_fields beh b etype data).1

theorem emit_empty_registry_bus (beh : Behavior) (b : EventBus) (t d : JVal)
    (hev : b.events = []) (hwc : b.wildcardListeners = []) :
    (EventBus.emit beh b t d).bus =
      { b with
        eventHistory := pushCap b.eventHistory ⟨t, d, b.nextEventId⟩,
        nextEventId := b.nextEventId + 1 } := by
  dsimp only [EventBus.emit, EventBus.emitBody]
  simp [hev, hwc, mapGet, runListeners, runWildcards, pushCap]

theorem runEmits_empty_registry (beh : Behavior) :
    ∀ (evs : List (JVal × JVal)) (b : EventBus),
      b.events = [] → b.wildcardListeners = [] →
      (runEmits beh b evs).eventHistory =
        histFold b.eventHistory (envsFrom b.nextEventId evs) := by
  intro evs
  induction evs with
  | nil => intro b _ _; simp [runEmits, envsFrom, histFold]
  | cons ev rest ih =>
      intro b hev hwc
      obtain ⟨t, d⟩ := ev
      have hbus := emit_empty_registry_bus beh b t d hev hwc
      simp only [runEmits, hbus, envsFrom, histFold]
      exact ih _ hev hwc

/-- C8 (amended): every publish appends exactly one envelope to the bounded
FIFO history, dropping the oldest once the capacity of 100 is exceeded — so
any emission sequence from a fresh bus leaves exactly the most recent 100
envelopes (after 101 distinct events: length 100, oldest dropped first) —
and `getHistory(N)` returns the most recent `N` envelopes for every `N ≥ 1`
(for `N = 0` the source's `slice(-0)` returns the whole buffer, the
counterexample above).  The single-append statement assumes no listener
errored, since a listener error triggers the secondary `system:error`
emission, which appends its own envelope. -/
theorem history_fifo_capacity_and_recent :
    (∀ (beh : Behavior) (b : EventBus) (etype data : JVal),
      (EventBus.emit beh b etype data).errors = [] →
      (EventBus.emit beh b etype data).bus.eventHistory =
        pushCap b.eventHistory ⟨etype, data, b.nextEventId⟩) ∧
    (∀ (beh : Behavior) (evs : List (JVal × JVal)),
      (runEmits beh EventBus.empty evs).eventHistory =
        takeLast maxHistorySize (envsFrom 0 evs)) ∧
    (∀ (b : EventBus) (lim : Int), 1 ≤ lim →
      b.getHistory lim = takeLast lim.toNat b.eventHistory) := by
  refine ⟨emit_history_no_errors, ?_, ?_⟩
  · intro beh evs
    rw [runEmits_empty_registry beh evs EventBus.empty rfl rfl]
    rw [show EventBus.empty.eventHistory =
      takeLast maxHistorySize ([] : List EventData) from rfl]
    rw [histFold_takeLast]
    rfl
  · intro b lim hlim
    unfold EventBus.getHistory takeLast
    rw [if_pos (by omega)]

set_option maxRecDepth 4000 in
/-- Witness for C8: the single-append clause at a concrete emission, the
FIFO clause at 101 concrete distinct events — the history then has length
100 and starts with envelope 1, envelope 0 having been dropped — and the
`getHistory` clause at `N = 1`. -/
theorem history_fifo_capacity_and_recent_witness :
    (EventBus.emit beh0 EventBus.empty (JVal.vstr "a") (JVal.vnum 0)).errors = [] ∧
    (EventBus.emit beh0 EventBus.empty (JVal.vstr "a")
        (JVal.vnum 0)).bus.eventHistory =
      pushCap EventBus.empty.eventHistory
        ⟨JVal.vstr "a", JVal.vnum 0, EventBus.empty.nextEventId⟩ ∧
    (runEmits beh0 EventBus.empty evs101).eventHistory =
      takeLast maxHistorySize (envsFrom 0 evs101) ∧
    (runEmits beh0 EventBus.empty evs101).eventHistory.length = 100 ∧
    (runEmits beh0 EventBus.empty evs101).eventHistory.head? =
      some ⟨JVal.vnum 1, JVal.vnum 0, 1⟩ ∧
    ((1 : Int) ≤ (1 : Int)) ∧
    busH1.getHistory 1 = takeLast (Int.toNat 1) busH1.eventHistory :=
  ⟨rfl,
    history_fifo_capacity_and_recent.1 beh0 EventBus.empty _ _ rfl,
    history_fifo_capacity_and_recent.2.1 beh0 evs101,
    by decide,
    by decide,
    by decide,
    history_fifo_capacity_and_recent.2.2 busH1 1 (by decide)⟩

/-!
## Delivery characterization lemmas (C6, C3)
-/

theorem runListeners_spec (beh : Behavior) (ed : EventData)
    (ls : List Listener) :
    (runListeners beh ed ls).log =
      ls.map (fun l => ⟨l.id, l.callback, ed.type, false⟩) ∧
    (runListeners beh ed ls).results =
      ls.filterMap (fun l => (beh l.callback ed).toOption) := by
  induction ls with
  | nil => simp [runListeners]
  | cons l ls ih =>
      cases hb : beh l.callback ed with
      | ok v => simp [runListeners, hb, ih.1, ih.2, Except.toOption]
      | error e => simp [runListeners, hb, ih.1, ih.2, Except.toOption]

theorem runWildcards_spec (beh : Behavior) (ed : EventData)
    (ws : List WListener) :
    (runWildcards beh ed ws).log =
      (ws.filter (fun w => matchesWildcard ed.type w.pattern)).map
        (fun w => ⟨w.id, w.callback, ed.type, true⟩) ∧
    (runWildcards beh ed ws).results =
      (ws.filter (fun w => matchesWildcard ed.type w.pattern)).filterMap
        (fun w => (beh w.callback ed).toOption) := by
  induction ws with
  | nil => simp [runWildcards]
  | cons w ws ih =>
      by_cases hm : matchesWildcard ed.type w.pattern
      · cases hb : beh w.callback ed with
        | ok v => simp [runWildcards, hm, hb, ih.1, ih.2, Except.toOption]
        | error e => simp [runWildcards, hm, hb, ih.1, ih.2, Except.toOption]
      · simp [runWildcards, hm, ih.1, ih.2]

theorem runListeners_log (beh : Behavior) (ed : EventData)
    (ls : List Listener) :
    (runListeners beh ed ls).log =
      ls.map (fun l => ⟨l.id, l.callback, ed.type, false⟩) :=
  (runListeners_spec beh ed ls).1

theorem runListeners_results (beh : Behavior) (ed : EventData)
    (ls : List Listener) :
    (runListeners beh ed ls).results =
      ls.filterMap (fun l => (beh l.callback ed).toOption) :=
  (runListeners_spec beh ed ls).2

theorem runWildcards_log (beh : Behavior) (ed : EventData)
    (ws : List WListener) :
    (runWildcards beh ed ws).log =
      (ws.filter (fun w => matchesWildcard ed.type w.pattern)).map
        (fun w => ⟨w.id, w.callback, ed.type, true⟩) :=
  (runWildcards_spec beh ed ws).1

theorem runWildcards_results (beh : Behavior) (ed : EventData)
    (ws : List WListener) :
    (runWildcards beh ed ws).results =
      (ws.filter (fun w => matchesWildcard ed.type w.pattern)).filterMap
        (fun w => (beh w.callback ed).toOption) :=
  (runWildcards_spec beh ed ws).2

theorem emitBody_log (beh : Behavior) (b : EventBus) (etype data : JVal) :
    (EventBus.emitBody beh b etype data).log =
      ((mapGet b.events etype).getD []).map
        (fun l => ⟨l.id, l.callback, etype, false⟩) ++
      (b.wildcardListeners.filter
        (fun w => matchesWildcard etype w.pattern)).map
        (fun w => ⟨w.id, w.callback, etype, true⟩) := by
  dsimp only [EventBus.emitBody]
  split <;> [skip; split] <;>
    (rw [runListeners_log, runWildcards_log]; try rfl)

theorem emitBody_results (beh : Behavior) (b : EventBus) (etype data : JVal) :
    (EventBus.emitBody beh b etype data).results =
      ((mapGet b.events etype).getD []).filterMap
        (fun l => (beh l.callback ⟨etype, data, b.nextEventId⟩).toOption) ++
      (b.wildcardListeners.filter
        (fun w => matchesWildcard etype w.pattern)).filterMap
        (fun w => (beh w.callback ⟨etype, data, b.nextEventId⟩).toOption) := by
  dsimp only [EventBus.emitBody]
  split <;> [skip; split] <;>
    (rw [runListeners_results, runWildcards_results]; try rfl)

theorem emitBody_log_types (beh : Behavior) (b : EventBus) (etype data : JVal) :
    ∀ r ∈ (EventBus.emitBody beh b etype data).log, r.type = etype := by
  intro r hr
  rw [emitBody_log] at hr
  simp only [List.mem_append, List.mem_map, List.mem_filter] at hr
  rcases hr with ⟨l, _, rfl⟩ | ⟨w, _, rfl⟩ <;> rfl

theorem emit_results_eq (beh : Behavior) (b : EventBus) (etype data : JVal) :
    (EventBus.emit beh b etype data).results =
      (EventBus.emitBody beh b etype data).results := by
  dsimp only [EventBus.emit]
  split <;> rfl

/-- The deliveries of one `emit` call restricted to its own event type:
exactly the bucket in stored order, then the matching wildcard listeners in
stored order; entries of the secondary diagnostic emission carry the
`system:error` type and are filtered out. -/
theorem emit_log_filter_eq (beh : Behavior) (b : EventBus)
    (etype data : JVal) :
    (EventBus.emit beh b etype data).log.filter (fun r => r.type == etype) =
      ((mapGet b.events etype).getD []).map
        (fun l => ⟨l.id, l.callback, etype, false⟩) ++
      (b.wildcardListeners.filter
        (fun w => matchesWildcard etype w.pattern)).map
        (fun w => ⟨w.id, w.callback, etype, true⟩) := by
  have hself : ∀ (bb : EventBus) (dd : JVal),
      (EventBus.emitBody beh bb etype dd).log.filter
        (fun r => r.type == etype) = (EventBus.emitBody beh bb etype dd).log :=
    fun bb dd => List.filter_eq_self.mpr (fun r hr => by
      rw [emitBody_log_types beh bb etype dd r hr]; simp)
  dsimp only [EventBus.emit]
  split
  case isTrue h =>
    have hne : etype ≠ JVal.vstr "system:error" := by
      simp only [Bool.and_eq_true, bne_iff_ne, ne_eq] at h
      exact h.2
    have hsec : (EventBus.emitBody beh (EventBus.emitBody beh b etype data).bus
        (JVal.vstr "system:error") (JVal.vstr "listener-error-report")).log.filter
          (fun r => r.type == etype) = [] := by
      refine List.filter_eq_nil_iff.mpr (fun r hr => ?_)
      rw [emitBody_log_types _ _ _ _ r hr]
      simp [Ne.symm hne]
    dsimp only
    rw [List.filter_append, hself, hsec, List.append_nil, emitBody_log]
  case isFalse h =>
    rw [hself, emitBody_log]

/-- C6 (amended): `emit` performs no input validation and, with glob-safe
wildcard patterns, never rejects (the counterexample above shows a
non-string type being processed normally rather than rejected).  Listener
failures are isolated: for every bus, behaviour, and payload, every bucket
listener and every matching wildcard listener is invoked — a listener that
throws never prevents delivery to the remaining listeners of the same
emission — and the call resolves with exactly the results of the listeners
that did not throw, in delivery order. -/
theorem emit_isolates_listener_errors (beh : Behavior) (b : EventBus)
    (etype data : JVal) :
    (EventBus.emit beh b etype data).log.filter (fun r => r.type == etype) =
      ((mapGet b.events etype).getD []).map
        (fun l => ⟨l.id, l.callback, etype, false⟩) ++
      (b.wildcardListeners.filter
        (fun w => matchesWildcard etype w.pattern)).map
        (fun w => ⟨w.id, w.callback, etype, true⟩) ∧
    (EventBus.emit beh b etype data).results =
      ((mapGet b.events etype).getD []).filterMap
        (fun l => (beh l.callback ⟨etype, data, b.nextEventId⟩).toOption) ++
      (b.wildcardListeners.filter
        (fun w => matchesWildcard etype w.pattern)).filterMap
        (fun w => (beh w.callback ⟨etype, data, b.nextEventId⟩).toOption) :=
  ⟨emit_log_filter_eq beh b etype data,
    by rw [emit_results_eq, emitBody_results]⟩

/-!
## Bucket-ordering and well-formedness lemmas (C3)
-/
theorem mapGet_mem {κ α : Type} [DecidableEq κ] (m : List (κ × α)) (k : κ)
    (v : α) (h : mapGet m k = some v) : (k, v) ∈ m := by
  induction m with
  | nil => simp [mapGet] at h
  | cons p rest ih =>
      obtain ⟨k0, v0⟩ := p
      by_cases hk : k0 = k
      · subst hk
        simp [mapGet] at h
        simp [h]
      · simp [mapGet, hk] at h
        exact List.mem_cons_of_mem _ (ih h)

theorem insertByPriority_mem (nl : Listener) (ls : List Listener)
    (l : Listener) : l ∈ insertByPriority nl ls ↔ l = nl ∨ l ∈ ls := by
  induction ls with
  | nil => simp [insertByPriority]
  | cons a as ih =>
      by_cases h : a.priority < nl.priority
      · simp [insertByPriority, h]
        try tauto
      · simp [insertByPriority, h, ih]
        try tauto

theorem insertByPriority_pairwise (nl : Listener) (ls : List Listener)
    (hp : ls.Pairwise listenerOrdered) (hid : ∀ l ∈ ls, l.id < nl.id) :
    (insertByPriority nl ls).Pairwise listenerOrdered := by
  induction ls with
  | nil => simp [insertByPriority, List.pairwise_singleton]
  | cons a as ih =>
      rcases List.pairwise_cons.mp hp with ⟨ha, has⟩
      by_cases h : a.priority < nl.priority
      · rw [insertByPriority, if_pos h]
        refine List.pairwise_cons.mpr ⟨?_, hp⟩
        intro x hx
        rcases List.mem_cons.mp hx with rfl | hx'
        · exact Or.inl h
        · rcases ha x hx' with hlt | ⟨heq, _⟩
          · exact Or.inl (lt_trans hlt h)
          · exact Or.inl (heq ▸ h)
      · rw [insertByPriority, if_neg h]
        refine List.pairwise_cons.mpr ⟨?_, ih has (fun l hl => hid l (List.mem_cons_of_mem _ hl))⟩
        intro x hx
        rcases (insertByPriority_mem nl as x).mp hx with rfl | hx'
        · rcases lt_or_eq_of_le (not_lt.mp h) with hlt | heq
          · exact Or.inl hlt
          · exact Or.inr ⟨heq.symm, hid a (List.mem_cons_self a as)⟩
        · exact ha x hx'

theorem WFBus_empty : WFBus EventBus.empty := by
  refine ⟨?_, ?_, ?_⟩ <;> simp [EventBus.empty]

theorem bucket_wf (b : EventBus) (h : WFBus b) (k : JVal) :
    ((mapGet b.events k).getD []).Pairwise listenerOrdered ∧
    ∀ l ∈ (mapGet b.events k).getD [], l.id < b.nextListenerId := by
  cases hm : mapGet b.events k with
  | none => simp
  | some arr => simpa using h.1 _ arr (mapGet_mem _ _ _ hm)

theorem WFBus_on (b : EventBus) (et : String) (cb : Nat) (p : Int) (o : Bool)
    (h : WFBus b) : WFBus (b.on et cb p o) := by
  obtain ⟨hev, hwp, hwb⟩ := h
  dsimp only [EventBus.on]
  split
  · refine ⟨?_, ?_, ?_⟩
    · intro k arr hk
      rcases hev k arr hk with ⟨hpair, hid⟩
      exact ⟨hpair, fun l hl => Nat.lt_succ_of_lt (hid l hl)⟩
    · rw [List.pairwise_append]
      refine ⟨hwp, List.pairwise_singleton _ _, ?_⟩
      intro a ha w hw
      simp at hw
      subst hw
      exact hwb a ha
    · intro w hw
      rcases List.mem_append.mp hw with hw | hw
      · exact Nat.lt_succ_of_lt (hwb w hw)
      · simp at hw
        subst hw
        exact Nat.lt_succ_self _
  · have hb := bucket_wf b ⟨hev, hwp, hwb⟩ (JVal.vstr et)
    refine ⟨?_, hwp, fun w hw => Nat.lt_succ_of_lt (hwb w hw)⟩
    intro k arr hk
    rcases mapSet_mem _ _ _ _ hk with heq | hmem
    · obtain ⟨hk1, hk2⟩ := Prod.mk.injEq .. ▸ heq
      subst hk2
      constructor
      · exact insertByPriority_pairwise _ _ hb.1 (fun l hl => hb.2 l hl)
      · intro l hl
        rcases (insertByPriority_mem _ _ l).mp hl with rfl | hl'
        · exact Nat.lt_succ_self _
        · exact Nat.lt_succ_of_lt (hb.2 l hl')
    · rcases hev k arr hmem with ⟨hpair, hid⟩
      exact ⟨hpair, fun l hl => Nat.lt_succ_of_lt (hid l hl)⟩

theorem WFBus_off (b : EventBus) (et : String) (cb : Nat)
    (h : WFBus b) : WFBus (b.off et cb) := by
  obtain ⟨hev, hwp, hwb⟩ := h
  dsimp only [EventBus.off]
  split
  · exact ⟨hev, List.Pairwise.filter _ hwp,
      fun w hw => hwb w (List.mem_of_mem_filter hw)⟩
  · split
    · exact ⟨hev, hwp, hwb⟩
    · rename_i listeners hm
      have harr := hev _ listeners (mapGet_mem _ _ _ hm)
      split
      · refine ⟨?_, hwp, hwb⟩
        intro k a hk
        exact hev k a (mapDelete_mem _ _ _ hk)
      · refine ⟨?_, hwp, hwb⟩
        intro k a hk
        rcases mapSet_mem _ _ _ _ hk with heq | hmem
        · obtain ⟨hk1, hk2⟩ := Prod.mk.injEq .. ▸ heq
          subst hk2
          exact ⟨List.Pairwise.filter _ harr.1,
            fun l hl => harr.2 l (List.mem_of_mem_filter hl)⟩
        · exact hev k a hmem

theorem WFBus_emitBody (beh : Behavior) (b : EventBus) (t d : JVal)
    (h : WFBus b) : WFBus (EventBus.emitBody beh b t d).bus := by
  obtain ⟨hev, hwp, hwb⟩ := h
  have hb := bucket_wf b ⟨hev, hwp, hwb⟩ t
  dsimp only [EventBus.emitBody]
  split
  · exact ⟨hev, hwp, hwb⟩
  · split
    · refine ⟨?_, hwp, hwb⟩
      intro k a hk
      exact hev k a (mapDelete_mem _ _ _ hk)
    · refine ⟨?_, hwp, hwb⟩
      intro k a hk
      rcases mapSet_mem _ _ _ _ hk with heq | hmem
      · obtain ⟨hk1, hk2⟩ := Prod.mk.injEq .. ▸ heq
        subst hk2
        exact ⟨List.Pairwise.filter _ hb.1,
          fun l hl => hb.2 l (List.mem_of_mem_filter hl)⟩
      · exact hev k a hmem

theorem WFBus_emit (beh : Behavior) (b : EventBus) (t d : JVal)
    (h : WFBus b) : WFBus (EventBus.emit beh b t d).bus := by
  dsimp only [EventBus.emit]
  split
  · exact WFBus_emitBody _ _ _ _ (WFBus_emitBody _ _ _ _ h)
  · exact WFBus_emitBody _ _ _ _ h

theorem ReachableBus_WF : ∀ b : EventBus, ReachableBus b → WFBus b := by
  intro b h
  induction h with
  | start => exact WFBus_empty
  | subStep et cb p o _ ih => exact WFBus_on _ et cb p o ih
  | unsubStep et cb _ ih => exact WFBus_off _ et cb ih
  | emitStep beh t d _ ih => exact WFBus_emit beh _ t d ih

/-- C3: on every reachable bus, each exact bucket is ordered by strictly
descending priority with registration order (increasing id) breaking ties,
the wildcard set is in registration order, and every emission delivers to
all exact-bucket listeners first, in that stored order, and to the matching
wildcard listeners afterwards, in their stored (registration) order. -/
theorem emit_ordering_priority_then_wildcards (b : EventBus)
    (hr : ReachableBus b) :
    (∀ t : JVal, ((mapGet b.events t).getD []).Pairwise listenerOrdered) ∧
    b.wildcardListeners.Pairwise (fun a c => a.id < c.id) ∧
    (∀ (beh : Behavior) (t d : JVal),
      (EventBus.emit beh b t d).log.filter (fun r => r.type == t) =
        ((mapGet b.events t).getD []).map
          (fun l => ⟨l.id, l.callback, t, false⟩) ++
        (b.wildcardListeners.filter
          (fun w => matchesWildcard t w.pattern)).map
          (fun w => ⟨w.id, w.callback, t, true⟩)) := by
  have hwf := ReachableBus_WF b hr
  exact ⟨fun t => (bucket_wf b hwf t).1, hwf.2.1,
    fun beh t d => emit_log_filter_eq beh b t d⟩

/-- Witness for C3 at the spec's own example: L2 (callback 2, priority 5)
registered before L1 (callback 1, priority 10) on `"note:added"`; the
reachable bus is ordered and emitting `"note:added"` invokes L1 before
L2. -/
theorem emit_ordering_priority_then_wildcards_witness :
    ReachableBus busL1L2 ∧
    (∀ t : JVal, ((mapGet busL1L2.events t).getD []).Pairwise listenerOrdered) ∧
    (EventBus.emit beh0 busL1L2 (JVal.vstr "note:added") (JVal.vnum 0)).log =
      [⟨1, 1, JVal.vstr "note:added", false⟩,
        ⟨0, 2, JVal.vstr "note:added", false⟩] := by
  have hr : ReachableBus busL1L2 :=
    ReachableBus.subStep _ _ _ _ (ReachableBus.subStep _ _ _ _ ReachableBus.start)
  exact ⟨hr, (emit_ordering_priority_then_wildcards busL1L2 hr).1, by rfl⟩

/-!
## Loader lemmas: dependency activation order (C7) and single-flight (C4)
-/

theorem mapGet_append_left_isSome {κ α : Type} [DecidableEq κ]
    (m m' : List (κ × α)) (k : κ) (h : (mapGet m k).isSome = true) :
    (mapGet (m ++ m') k).isSome = true := by
  induction m with
  | nil => simp [mapGet] at h
  | cons p rest ih =>
      obtain ⟨k0, v0⟩ := p
      by_cases hk : k0 = k
      · simp [mapGet, hk]
      · simp only [mapGet, hk, if_false, List.cons_append] at h ⊢
        simp [mapGet, hk] at h ⊢
        exact ih h

theorem mapGet_append_self_isSome {κ α : Type} [DecidableEq κ]
    (m : List (κ × α)) (k : κ) (v : α) :
    (mapGet (m ++ [(k, v)]) k).isSome = true := by
  induction m with
  | nil => simp [mapGet]
  | cons p rest ih =>
      obtain ⟨k0, v0⟩ := p
      by_cases hk : k0 = k
      · simp [mapGet, hk]
      · simpa [mapGet, hk] using ih

theorem coreRegisterModule_loaded (spec : ModSpec) (st : LState)
    (name : String) (inst : Nat) :
    (coreRegisterModule spec st name inst).2.loadedModules =
      st.loadedModules := by
  dsimp only [coreRegisterModule]
  split
  · rfl
  · split
    · rfl
    · split <;> rfl

theorem DepInv_of_loaded_eq (spec : ModSpec) (st st' : LState)
    (h : st'.loadedModules = st.loadedModules) (hd : DepInv spec st) :
    DepInv spec st' := by
  intro p hp d hdep hne
  rw [h] at hp ⊢
  exact hd p hp d hdep hne

theorem loadDependencies_props (spec : ModSpec)
    (f : LState → String → LRes × LState)
    (hA : ∀ st n x, (mapGet st.loadedModules x).isSome = true →
      (mapGet (f st n).2.loadedModules x).isSome = true)
    (hC : ∀ st n inst, (f st n).1 = LRes.ok inst →
      (mapGet (f st n).2.loadedModules n).isSome = true)
    (hB : ∀ st n, DepInv spec st → DepInv spec (f st n).2) :
    ∀ (ds : List String) (st : LState),
      (∀ x, (mapGet st.loadedModules x).isSome = true →
        (mapGet (loadDependencies f st ds).2.loadedModules x).isSome = true) ∧
      (DepInv spec st → DepInv spec (loadDependencies f st ds).2) ∧
      ((loadDependencies f st ds).1 = DepRes.okDeps →
        ∀ d ∈ ds, d ≠ "core" →
          (mapGet (loadDependencies f st ds).2.loadedModules d).isSome =
            true) := by
  intro ds
  induction ds with
  | nil =>
      intro st
      refine ⟨fun x h => ?_, fun h => ?_, fun _ d hd => ?_⟩
      · simpa [loadDependencies] using h
      · simpa [loadDependencies] using h
      · simp at hd
  | cons d rest ih =>
      intro st
      by_cases hskip : (d == "core" || (mapGet st.loadedModules d).isSome) = true
      · have hunf : loadDependencies f st (d :: rest) =
            loadDependencies f st rest := by
          dsimp only [loadDependencies]
          rw [if_pos hskip]
        rw [hunf]
        refine ⟨(ih st).1, (ih st).2.1, fun hok e he hne => ?_⟩
        rcases List.mem_cons.mp he with rfl | he'
        · rcases Bool.or_eq_true .. |>.mp hskip with hc | hl
          · exact absurd (by simpa using hc) hne
          · exact (ih st).1 e hl
        · exact (ih st).2.2 hok e he' hne
      · rcases hfd : f st d with ⟨r, st'⟩
        cases r with
        | ok inst =>
            have hunf : loadDependencies f st (d :: rest) =
                loadDependencies f st' rest := by
              dsimp only [loadDependencies]
              rw [if_neg hskip, hfd]
            rw [hunf]
            have hload : (mapGet st'.loadedModules d).isSome = true := by
              have := hC st d inst (by rw [hfd])
              rwa [hfd] at this
            refine ⟨fun x h => (ih st').1 x ?_, fun h => (ih st').2.1 ?_,
              fun hok e he hne => ?_⟩
            · have := hA st d x h
              rwa [hfd] at this
            · have := hB st d h
              rwa [hfd] at this
            · rcases List.mem_cons.mp he with rfl | he'
              · exact (ih st').1 e hload
              · exact (ih st').2.2 hok e he' hne
        | error e =>
            have hunf : loadDependencies f st (d :: rest) =
                (DepRes.errorDeps e, st') := by
              dsimp only [loadDependencies]
              rw [if_neg hskip, hfd]
            rw [hunf]
            refine ⟨fun x h => ?_, fun h => ?_, fun hok => ?_⟩
            · have := hA st d x h
              rwa [hfd] at this
            · have := hB st d h
              rwa [hfd] at this
            · simp at hok
        | stuck =>
            have hunf : loadDependencies f st (d :: rest) =
                (DepRes.stuckDeps, st') := by
              dsimp only [loadDependencies]
              rw [if_neg hskip, hfd]
            rw [hunf]
            refine ⟨fun x h => ?_, fun h => ?_, fun hok => ?_⟩
            · have := hA st d x h
              rwa [hfd] at this
            · have := hB st d h
              rwa [hfd] at this
            · simp at hok
        | fuelOut =>
            have hunf : loadDependencies f st (d :: rest) =
                (DepRes.fuelOutDeps, st') := by
              dsimp only [loadDependencies]
              rw [if_neg hskip, hfd]
            rw [hunf]
            refine ⟨fun x h => ?_, fun h => ?_, fun hok => ?_⟩
            · have := hA st d x h
              rwa [hfd] at this
            · have := hB st d h
              rwa [hfd] at this
            · simp at hok

theorem doLoadModule_props (spec : ModSpec)
    (f : LState → String → LRes × LState)
    (hA : ∀ st n x, (mapGet st.loadedModules x).isSome = true →
      (mapGet (f st n).2.loadedModules x).isSome = true)
    (hC : ∀ st n inst, (f st n).1 = LRes.ok inst →
      (mapGet (f st n).2.loadedModules n).isSome = true)
    (hB : ∀ st n, DepInv spec st → DepInv spec (f st n).2) :
    ∀ (st : LState) (n : String),
      (∀ x, (mapGet st.loadedModules x).isSome = true →
        (mapGet (doLoadModule spec f st n).2.loadedModules x).isSome = true) ∧
      (DepInv spec st → DepInv spec (doLoadModule spec f st n).2) ∧
      (∀ inst, (doLoadModule spec f st n).1 = LRes.ok inst →
        ∀ d ∈ spec.deps n, d ≠ "core" →
          (mapGet (doLoadModule spec f st n).2.loadedModules d).isSome =
            true) := by
  intro st n
  have hld := loadDependencies_props spec f hA hC hB
  by_cases hcache : st.moduleCache.contains n = true
  · dsimp only [doLoadModule]
    rw [if_pos hcache]
    obtain ⟨hA1, hB1, hC1⟩ := hld (spec.deps n)
      { st with trace := st.trace ++ [TEv.instantiated n], nextInst := st.nextInst + 1 }
    split
    · exact ⟨fun x h => h, fun h => h, fun inst hok => by simp at hok⟩
    · split
      · rename_i st2 hld2
        refine ⟨fun x h => ?_, fun h => ?_, fun inst hok d hd hne => ?_⟩
        · rw [coreRegisterModule_loaded]
          have h1 := hA1 x h
          rwa [hld2] at h1
        · refine DepInv_of_loaded_eq spec st2 _
            (coreRegisterModule_loaded spec st2 n _) ?_
          have h1 := hB1 h
          rwa [hld2] at h1
        · rw [coreRegisterModule_loaded]
          have h1 := hC1 (by rw [hld2]) d hd hne
          rwa [hld2] at h1
      · rename_i st2 hld2
        refine ⟨fun x h => ?_, fun h => ?_, fun inst hok => by simp at hok⟩
        · have h1 := hA1 x h
          rwa [hld2] at h1
        · have h1 := hB1 h
          rwa [hld2] at h1
      · rename_i st2 hld2
        refine ⟨fun x h => ?_, fun h => ?_, fun inst hok => by simp at hok⟩
        · have h1 := hA1 x h
          rwa [hld2] at h1
        · have h1 := hB1 h
          rwa [hld2] at h1
      · rename_i st2 hld2
        refine ⟨fun x h => ?_, fun h => ?_, fun inst hok => by simp at hok⟩
        · have h1 := hA1 x h
          rwa [hld2] at h1
        · have h1 := hB1 h
          rwa [hld2] at h1
  · dsimp only [doLoadModule]
    rw [if_neg hcache]
    obtain ⟨hA1, hB1, hC1⟩ := hld (spec.deps n)
      { st with moduleCache := st.moduleCache ++ [n], trace := st.trace ++ [TEv.instantiated n], nextInst := st.nextInst + 1 }
    split
    · exact ⟨fun x h => h, fun h => h, fun inst hok => by simp at hok⟩
    · split
      · rename_i st2 hld2
        refine ⟨fun x h => ?_, fun h => ?_, fun inst hok d hd hne => ?_⟩
        · rw [coreRegisterModule_loaded]
          have h1 := hA1 x h
          rwa [hld2] at h1
        · refine DepInv_of_loaded_eq spec st2 _
            (coreRegisterModule_loaded spec st2 n _) ?_
          have h1 := hB1 h
          rwa [hld2] at h1
        · rw [coreRegisterModule_loaded]
          have h1 := hC1 (by rw [hld2]) d hd hne
          rwa [hld2] at h1
      · rename_i st2 hld2
        refine ⟨fun x h => ?_, fun h => ?_, fun inst hok => by simp at hok⟩
        · have h1 := hA1 x h
          rwa [hld2] at h1
        · have h1 := hB1 h
          rwa [hld2] at h1
      · rename_i st2 hld2
        refine ⟨fun x h => ?_, fun h => ?_, fun inst hok => by simp at hok⟩
        · have h1 := hA1 x h
          rwa [hld2] at h1
        · have h1 := hB1 h
          rwa [hld2] at h1
      · rename_i st2 hld2
        refine ⟨fun x h => ?_, fun h => ?_, fun inst hok => by simp at hok⟩
        · have h1 := hA1 x h
          rwa [hld2] at h1
        · have h1 := hB1 h
          rwa [hld2] at h1

theorem loadModule_props (spec : ModSpec) : ∀ (fuel : Nat) (st : LState)
    (n : String),
    (∀ x, (mapGet st.loadedModules x).isSome = true →
      (mapGet (loadModule spec fuel st n).2.loadedModules x).isSome = true) ∧
    (∀ inst, (loadModule spec fuel st n).1 = LRes.ok inst →
      (mapGet (loadModule spec fuel st n).2.loadedModules n).isSome = true) ∧
    (DepInv spec st → DepInv spec (loadModule spec fuel st n).2) := by
  intro fuel
  induction fuel with
  | zero =>
      intro st n
      refine ⟨fun x h => by simpa [loadModule] using h,
        fun inst hok => by simp [loadModule] at hok,
        fun h => by simpa [loadModule] using h⟩
  | succ fuel ih =>
      have hdo := doLoadModule_props spec (loadModule spec fuel)
        (fun st n x h => (ih st n).1 x h)
        (fun st n inst h => (ih st n).2.1 inst h)
        (fun st n h => (ih st n).2.2 h)
      intro st n
      dsimp only [loadModule]
      split
      · rename_i inst0 hm
        exact ⟨fun x h => h, fun inst _ => by simp [hm], fun h => h⟩
      · rename_i hm
        split
        · exact ⟨fun x h => h, fun inst hok => by simp at hok, fun h => h⟩
        · obtain ⟨hdA, hdB, hdC⟩ :=
            hdo { st with loadingNames := st.loadingNames ++ [n] } n
          split
          · rename_i st2 hdo2
            have h2A : ∀ x, (mapGet st.loadedModules x).isSome = true →
                (mapGet st2.loadedModules x).isSome = true := by
              intro x h
              have h1 := hdA x h
              rwa [hdo2] at h1
            refine ⟨fun x h => ?_, fun inst _ => ?_, fun h => ?_⟩
            · exact mapGet_append_left_isSome _ _ _ (h2A x h)
            · exact mapGet_append_self_isSome _ _ _
            · have h2 : DepInv spec st2 := by
                have h1 := hdB h
                rwa [hdo2] at h1
              have h3 : ∀ d ∈ spec.deps n, d ≠ "core" →
                  (mapGet st2.loadedModules d).isSome = true := by
                have h1 := hdC _ (by rw [hdo2])
                intro d hd hne
                have h4 := h1 d hd hne
                rwa [hdo2] at h4
              intro p hp d hd hne
              rcases List.mem_append.mp hp with hp' | hp'
              · exact mapGet_append_left_isSome _ _ _ (h2 p hp' d hd hne)
              · have hpn : p = (n, _) := List.mem_singleton.mp hp'
                subst hpn
                exact mapGet_append_left_isSome _ _ _ (h3 d hd hne)
          · rename_i e0 st2 hdo2
            refine ⟨fun x h => ?_, fun inst hok => by simp at hok, fun h => ?_⟩
            · have h1 := hdA x h
              rwa [hdo2] at h1
            · have h1 := hdB h
              rwa [hdo2] at h1
          · rename_i st2 hdo2
            refine ⟨fun x h => ?_, fun inst hok => by simp at hok, fun h => ?_⟩
            · have h1 := hdA x h
              rwa [hdo2] at h1
            · have h1 := hdB h
              rwa [hdo2] at h1
          · rename_i st2 hdo2
            refine ⟨fun x h => ?_, fun inst hok => by simp at hok, fun h => ?_⟩
            · have h1 := hdA x h
              rwa [hdo2] at h1
            · have h1 := hdB h
              rwa [hdo2] at h1

/-- C7: the loader never marks a module active until every declared
dependency other than `'core'` is active — `DepInv` is preserved by every
`loadModule` call, over every module universe, fuel bound, and starting
state — and in the concrete scenario where A declares `["B"]`, `load("A")`
resolves after instantiating A, then loading B completely (B's `init`, then
B marked active) before A's `init` runs and A is marked. -/
theorem deps_active_before_init_and_marking :
    (∀ (spec : ModSpec) (fuel : Nat) (st : LState) (name : String),
      DepInv spec st → DepInv spec (loadModule spec fuel st name).2) ∧
    (loadModule specAB 5 LState.start "A").1 = LRes.ok 0 ∧
    (loadModule specAB 5 LState.start "A").2.trace =
      [TEv.instantiated "A", TEv.instantiated "B", TEv.inited "B",
        TEv.marked "B", TEv.inited "A", TEv.marked "A"] := by
  refine ⟨fun spec fuel st name h =>
    (loadModule_props spec fuel st name).2.2 h, rfl, rfl⟩

/-- Witness for C7: the dependency invariant holds of the fresh registries
(vacuously) and, applying the theorem, of the state after `load("A")`. -/
theorem deps_active_before_init_and_marking_witness :
    DepInv specAB LState.start ∧
    DepInv specAB (loadModule specAB 5 LState.start "A").2 :=
  ⟨fun p hp => by simp [LState.start] at hp,
    deps_active_before_init_and_marking.1 specAB 5 LState.start "A"
      (fun p hp => by simp [LState.start] at hp)⟩

theorem contains_true_of_count_eq (l l' : List String) (a : String)
    (h : l'.count a = l.count a) (hc : l.contains a = true) :
    l'.contains a = true := by
  simp at hc ⊢
  exact List.count_pos_iff.mp (h ▸ List.count_pos_iff.mpr hc)

theorem coreRegisterModule_noreentry (spec : ModSpec) (st : LState)
    (m : String) (inst : Nat) (name : String) (hne : m ≠ name) :
    (coreRegisterModule spec st m inst).2.trace.count (TEv.inited name) =
      st.trace.count (TEv.inited name) ∧
    (coreRegisterModule spec st m inst).2.trace.count
        (TEv.instantiated name) =
      st.trace.count (TEv.instantiated name) ∧
    (coreRegisterModule spec st m inst).2.loadingNames.count name =
      st.loadingNames.count name ∧
    (coreRegisterModule spec st m inst).2.coreModules.contains name =
      st.coreModules.contains name := by
  dsimp only [coreRegisterModule]
  split
  · exact ⟨rfl, rfl, rfl, rfl⟩
  · split
    · exact ⟨rfl, rfl, rfl, rfl⟩
    · split <;>
        refine ⟨?_, ?_, rfl, ?_⟩ <;>
          simp [List.count_append, List.count_cons, hne, Ne.symm hne]

theorem loadDependencies_noreentry (name : String)
    (f : LState → String → LRes × LState)
    (hf : ∀ st m, st.loadingNames.contains name = true →
      (f st m).2.trace.count (TEv.inited name) =
        st.trace.count (TEv.inited name) ∧
      (f st m).2.trace.count (TEv.instantiated name) =
        st.trace.count (TEv.instantiated name) ∧
      (f st m).2.loadingNames.count name = st.loadingNames.count name ∧
      (f st m).2.coreModules.contains name = st.coreModules.contains name) :
    ∀ (ds : List String) (st : LState),
      st.loadingNames.contains name = true →
      (loadDependencies f st ds).2.trace.count (TEv.inited name) =
        st.trace.count (TEv.inited name) ∧
      (loadDependencies f st ds).2.trace.count (TEv.instantiated name) =
        st.trace.count (TEv.instantiated name) ∧
      (loadDependencies f st ds).2.loadingNames.count name =
        st.loadingNames.count name ∧
      (loadDependencies f st ds).2.coreModules.contains name =
        st.coreModules.contains name := by
  intro ds
  induction ds with
  | nil => intro st h; exact ⟨rfl, rfl, rfl, rfl⟩
  | cons d rest ih =>
      intro st h
      by_cases hskip : (d == "core" || (mapGet st.loadedModules d).isSome) = true
      · have hunf : loadDependencies f st (d :: rest) =
            loadDependencies f st rest := by
          dsimp only [loadDependencies]
          rw [if_pos hskip]
        rw [hunf]
        exact ih st h
      · rcases hfd : f st d with ⟨r, st'⟩
        have hfp := hf st d h
        rw [hfd] at hfp
        obtain ⟨hp1, hp2, hp3, hp4⟩ := hfp
        have hc' : st'.loadingNames.contains name = true :=
          contains_true_of_count_eq _ _ _ hp3 h
        cases r with
        | ok inst =>
            have hunf : loadDependencies f st (d :: rest) =
                loadDependencies f st' rest := by
              dsimp only [loadDependencies]
              rw [if_neg hskip, hfd]
            rw [hunf]
            obtain ⟨q1, q2, q3, q4⟩ := ih st' hc'
            exact ⟨q1.trans hp1, q2.trans hp2, q3.trans hp3, q4.trans hp4⟩
        | error e =>
            have hunf : loadDependencies f st (d :: rest) =
                (DepRes.errorDeps e, st') := by
              dsimp only [loadDependencies]
              rw [if_neg hskip, hfd]
            rw [hunf]
            exact ⟨hp1, hp2, hp3, hp4⟩
        | stuck =>
            have hunf : loadDependencies f st (d :: rest) =
                (DepRes.stuckDeps, st') := by
              dsimp only [loadDependencies]
              rw [if_neg hskip, hfd]
            rw [hunf]
            exact ⟨hp1, hp2, hp3, hp4⟩
        | fuelOut =>
            have hunf : loadDependencies f st (d :: rest) =
                (DepRes.fuelOutDeps, st') := by
              dsimp only [loadDependencies]
              rw [if_neg hskip, hfd]
            rw [hunf]
            exact ⟨hp1, hp2, hp3, hp4⟩

theorem doLoadModule_noreentry (spec : ModSpec) (name : String)
    (f : LState → String → LRes × LState)
    (hf : ∀ st m, st.loadingNames.contains name = true →
      (f st m).2.trace.count (TEv.inited name) =
        st.trace.count (TEv.inited name) ∧
      (f st m).2.trace.count (TEv.instantiated name) =
        st.trace.count (TEv.instantiated name) ∧
      (f st m).2.loadingNames.count name = st.loadingNames.count name ∧
      (f st m).2.coreModules.contains name = st.coreModules.contains name) :
    ∀ (st : LState) (m : String), m ≠ name →
      st.loadingNames.contains name = true →
      (doLoadModule spec f st m).2.trace.count (TEv.inited name) =
        st.trace.count (TEv.inited name) ∧
      (doLoadModule spec f st m).2.trace.count (TEv.instantiated name) =
        st.trace.count (TEv.instantiated name) ∧
      (doLoadModule spec f st m).2.loadingNames.count name =
        st.loadingNames.count name ∧
      (doLoadModule spec f st m).2.coreModules.contains name =
        st.coreModules.contains name := by
  intro st m hne h
  by_cases hcache : st.moduleCache.contains m = true
  · dsimp only [doLoadModule]
    rw [if_pos hcache]
    set ST1 : LState := { st with trace := st.trace ++ [TEv.instantiated m], nextInst := st.nextInst + 1 } with hST1
    have hbase : ST1.trace.count (TEv.inited name) =
        st.trace.count (TEv.inited name) ∧
        ST1.trace.count (TEv.instantiated name) =
          st.trace.count (TEv.instantiated name) := by
      constructor <;> simp [List.count_append, List.count_cons, hne, hST1]
    split
    · exact ⟨hbase.1, hbase.2, rfl, rfl⟩
    · split
      · rename_i st2 hld2
        have hld := loadDependencies_noreentry name f hf (spec.deps m) ST1
          (by rw [hST1]; exact h)
        rw [hST1] at hld
        rw [hld2] at hld
        obtain ⟨q1, q2, q3, q4⟩ := hld
        rw [hST1] at hbase
        have hcr := coreRegisterModule_noreentry spec st2 m st.nextInst name hne
        refine ⟨hcr.1.trans (q1.trans hbase.1),
          hcr.2.1.trans (q2.trans hbase.2), hcr.2.2.1.trans q3,
          hcr.2.2.2.trans q4⟩
      · rename_i st2 hld2
        have hld := loadDependencies_noreentry name f hf (spec.deps m) ST1
          (by rw [hST1]; exact h)
        rw [hST1] at hld
        rw [hld2] at hld
        rw [hST1] at hbase
        exact ⟨hld.1.trans hbase.1, hld.2.1.trans hbase.2, hld.2.2.1,
          hld.2.2.2⟩
      · rename_i st2 hld2
        have hld := loadDependencies_noreentry name f hf (spec.deps m) ST1
          (by rw [hST1]; exact h)
        rw [hST1] at hld
        rw [hld2] at hld
        rw [hST1] at hbase
        exact ⟨hld.1.trans hbase.1, hld.2.1.trans hbase.2, hld.2.2.1,
          hld.2.2.2⟩
      · rename_i st2 hld2
        have hld := loadDependencies_noreentry name f hf (spec.deps m) ST1
          (by rw [hST1]; exact h)
        rw [hST1] at hld
        rw [hld2] at hld
        rw [hST1] at hbase
        exact ⟨hld.1.trans hbase.1, hld.2.1.trans hbase.2, hld.2.2.1,
          hld.2.2.2⟩
  · dsimp only [doLoadModule]
    rw [if_neg hcache]
    set ST1 : LState := { st with moduleCache := st.moduleCache ++ [m], trace := st.trace ++ [TEv.instantiated m], nextInst := st.nextInst + 1 } with hST1
    have hbase : ST1.trace.count (TEv.inited name) =
        st.trace.count (TEv.inited name) ∧
        ST1.trace.count (TEv.instantiated name) =
          st.trace.count (TEv.instantiated name) := by
      constructor <;> simp [List.count_append, List.count_cons, hne, hST1]
    split
    · exact ⟨hbase.1, hbase.2, rfl, rfl⟩
    · split
      · rename_i st2 hld2
        have hld := loadDependencies_noreentry name f hf (spec.deps m) ST1
          (by rw [hST1]; exact h)
        rw [hST1] at hld
        rw [hld2] at hld
        obtain ⟨q1, q2, q3, q4⟩ := hld
        rw [hST1] at hbase
        have hcr := coreRegisterModule_noreentry spec st2 m st.nextInst name hne
        refine ⟨hcr.1.trans (q1.trans hbase.1),
          hcr.2.1.trans (q2.trans hbase.2), hcr.2.2.1.trans q3,
          hcr.2.2.2.trans q4⟩
      · rename_i st2 hld2
        have hld := loadDependencies_noreentry name f hf (spec.deps m) ST1
          (by rw [hST1]; exact h)
        rw [hST1] at hld
        rw [hld2] at hld
        rw [hST1] at hbase
        exact ⟨hld.1.trans hbase.1, hld.2.1.trans hbase.2, hld.2.2.1,
          hld.2.2.2⟩
      · rename_i st2 hld2
        have hld := loadDependencies_noreentry name f hf (spec.deps m) ST1
          (by rw [hST1]; exact h)
        rw [hST1] at hld
        rw [hld2] at hld
        rw [hST1] at hbase
        exact ⟨hld.1.trans hbase.1, hld.2.1.trans hbase.2, hld.2.2.1,
          hld.2.2.2⟩
      · rename_i st2 hld2
        have hld := loadDependencies_noreentry name f hf (spec.deps m) ST1
          (by rw [hST1]; exact h)
        rw [hST1] at hld
        rw [hld2] at hld
        rw [hST1] at hbase
        exact ⟨hld.1.trans hbase.1, hld.2.1.trans hbase.2, hld.2.2.1,
          hld.2.2.2⟩

theorem loadModule_noreentry (spec : ModSpec) (name : String) :
    ∀ (fuel : Nat) (st : LState) (m : String),
      st.loadingNames.contains name = true →
      (loadModule spec fuel st m).2.trace.count (TEv.inited name) =
        st.trace.count (TEv.inited name) ∧
      (loadModule spec fuel st m).2.trace.count (TEv.instantiated name) =
        st.trace.count (TEv.instantiated name) ∧
      (loadModule spec fuel st m).2.loadingNames.count name =
        st.loadingNames.count name ∧
      (loadModule spec fuel st m).2.coreModules.contains name =
        st.coreModules.contains name := by
  intro fuel
  induction fuel with
  | zero => intro st m h; exact ⟨rfl, rfl, rfl, rfl⟩
  | succ fuel ih =>
      intro st m h
      dsimp only [loadModule]
      split
      · exact ⟨rfl, rfl, rfl, rfl⟩
      · split
        · exact ⟨rfl, rfl, rfl, rfl⟩
        · rename_i hload
          have hne : m ≠ name := by
            intro hEq
            subst hEq
            exact hload h
          have hc1 : (st.loadingNames ++ [m]).contains name = true := by
            simp at h ⊢
            exact Or.inl h
          have hdo := doLoadModule_noreentry spec name (loadModule spec fuel)
            (fun st2 m2 h2 => ih st2 m2 h2)
            { st with loadingNames := st.loadingNames ++ [m] } m hne hc1
          have hcnt : (st.loadingNames ++ [m]).count name =
              st.loadingNames.count name := by
            simp [List.count_append, List.count_cons, Ne.symm hne]
          split
          · rename_i st2 hdo2
            rw [hdo2] at hdo
            obtain ⟨q1, q2, q3, q4⟩ := hdo
            refine ⟨?_, ?_, ?_, ?_⟩
            · simp only [List.count_append]
              simp [List.count_cons, q1]
            · simp only [List.count_append]
              simp [List.count_cons, q2]
            · rw [List.count_erase_of_ne (Ne.symm hne), q3, hcnt]
            · exact q4
          · rename_i st2 hdo2
            rw [hdo2] at hdo
            obtain ⟨q1, q2, q3, q4⟩ := hdo
            refine ⟨q1, q2, ?_, q4⟩
            rw [List.count_erase_of_ne (Ne.symm hne), q3, hcnt]
          · rename_i st2 hdo2
            rw [hdo2] at hdo
            obtain ⟨q1, q2, q3, q4⟩ := hdo
            exact ⟨q1, q2, q3.trans hcnt, q4⟩
          · rename_i st2 hdo2
            rw [hdo2] at hdo
            obtain ⟨q1, q2, q3, q4⟩ := hdo
            exact ⟨q1, q2, q3.trans hcnt, q4⟩

theorem coreRegisterModule_self_counts (spec : ModSpec) (st : LState)
    (name : String) (inst : Nat)
    (hcore : st.coreModules.contains name = false)
    (hv : spec.valid name = true) :
    (coreRegisterModule spec st name inst).2.trace.count (TEv.inited name) =
      st.trace.count (TEv.inited name) + 1 ∧
    (coreRegisterModule spec st name inst).2.loadingNames =
      st.loadingNames := by
  dsimp only [coreRegisterModule]
  rw [if_neg (by simp at hcore ⊢; exact hcore), if_neg (by simp [hv])]
  split <;> constructor <;> simp [List.count_append, List.count_cons]

theorem coreRegisterModule_noreentry2 (spec : ModSpec) (st : LState)
    (name : String) (inst : Nat) :
    (coreRegisterModule spec st name inst).2.trace.count
        (TEv.instantiated name) = st.trace.count (TEv.instantiated name) ∧
    (coreRegisterModule spec st name inst).2.loadingNames =
      st.loadingNames := by
  dsimp only [coreRegisterModule]
  split
  · exact ⟨rfl, rfl⟩
  · split
    · exact ⟨rfl, rfl⟩
    · split <;> constructor <;> simp [List.count_append, List.count_cons]

theorem doLoadModule_self_counts (spec : ModSpec) (name : String)
    (f : LState → String → LRes × LState)
    (hf : ∀ st m, st.loadingNames.contains name = true →
      (f st m).2.trace.count (TEv.inited name) =
        st.trace.count (TEv.inited name) ∧
      (f st m).2.trace.count (TEv.instantiated name) =
        st.trace.count (TEv.instantiated name) ∧
      (f st m).2.loadingNames.count name = st.loadingNames.count name ∧
      (f st m).2.coreModules.contains name = st.coreModules.contains name)
    (st : LState) (hv : spec.valid name = true)
    (hcontains : st.loadingNames.contains name = true)
    (hcore : st.coreModules.contains name = false) :
    (doLoadModule spec f st name).2.trace.count (TEv.instantiated name) =
      st.trace.count (TEv.instantiated name) + 1 ∧
    (doLoadModule spec f st name).2.trace.count (TEv.inited name) ≤
      st.trace.count (TEv.inited name) + 1 ∧
    (∀ inst, (doLoadModule spec f st name).1 = LRes.ok inst →
      (doLoadModule spec f st name).2.trace.count (TEv.inited name) =
        st.trace.count (TEv.inited name) + 1) ∧
    (doLoadModule spec f st name).2.loadingNames.count name =
      st.loadingNames.count name := by
  by_cases hcache : st.moduleCache.contains name = true
  · dsimp only [doLoadModule]
    rw [if_pos hcache]
    set ST1 : LState := { st with trace := st.trace ++ [TEv.instantiated name], nextInst := st.nextInst + 1 } with hST1
    rw [if_neg (by simp [hv])]
    have hld := loadDependencies_noreentry name f hf (spec.deps name) ST1
      (by rw [hST1]; exact hcontains)
    rw [hST1] at hld
    have hbase1 : (st.trace ++ [TEv.instantiated name]).count
        (TEv.instantiated name) = st.trace.count (TEv.instantiated name) + 1 := by
      simp [List.count_append, List.count_cons]
    have hbase2 : (st.trace ++ [TEv.instantiated name]).count
        (TEv.inited name) = st.trace.count (TEv.inited name) := by
      simp [List.count_append, List.count_cons]
    split
    · rename_i st2 hld2
      rw [hld2] at hld
      obtain ⟨q1, q2, q3, q4⟩ := hld
      have hcr := coreRegisterModule_self_counts spec st2 name st.nextInst
        (q4.trans hcore) hv
      refine ⟨?_, ?_, fun inst _ => ?_, ?_⟩
      · have := coreRegisterModule_noreentry2 spec st2 name st.nextInst
        rw [this.1, q2, hbase1]
      · rw [hcr.1, q1, hbase2]
      · rw [hcr.1, q1, hbase2]
      · have := coreRegisterModule_noreentry2 spec st2 name st.nextInst
        rw [this.2, q3]
    · rename_i st2 hld2
      rw [hld2] at hld
      obtain ⟨q1, q2, q3, q4⟩ := hld
      refine ⟨q2.trans hbase1, by rw [q1, hbase2]; omega,
        fun inst hok => by simp at hok, q3⟩
    · rename_i st2 hld2
      rw [hld2] at hld
      obtain ⟨q1, q2, q3, q4⟩ := hld
      refine ⟨q2.trans hbase1, by rw [q1, hbase2]; omega,
        fun inst hok => by simp at hok, q3⟩
    · rename_i st2 hld2
      rw [hld2] at hld
      obtain ⟨q1, q2, q3, q4⟩ := hld
      refine ⟨q2.trans hbase1, by rw [q1, hbase2]; omega,
        fun inst hok => by simp at hok, q3⟩
  · dsimp only [doLoadModule]
    rw [if_neg hcache]
    set ST1 : LState := { st with moduleCache := st.moduleCache ++ [name], trace := st.trace ++ [TEv.instantiated name], nextInst := st.nextInst + 1 } with hST1
    rw [if_neg (by simp [hv])]
    have hld := loadDependencies_noreentry name f hf (spec.deps name) ST1
      (by rw [hST1]; exact hcontains)
    rw [hST1] at hld
    have hbase1 : (st.trace ++ [TEv.instantiated name]).count
        (TEv.instantiated name) = st.trace.count (TEv.instantiated name) + 1 := by
      simp [List.count_append, List.count_cons]
    have hbase2 : (st.trace ++ [TEv.instantiated name]).count
        (TEv.inited name) = st.trace.count (TEv.inited name) := by
      simp [List.count_append, List.count_cons]
    split
    · rename_i st2 hld2
      rw [hld2] at hld
      obtain ⟨q1, q2, q3, q4⟩ := hld
      have hcr := coreRegisterModule_self_counts spec st2 name st.nextInst
        (q4.trans hcore) hv
      refine ⟨?_, ?_, fun inst _ => ?_, ?_⟩
      · have := coreRegisterModule_noreentry2 spec st2 name st.nextInst
        rw [this.1, q2, hbase1]
      · rw [hcr.1, q1, hbase2]
      · rw [hcr.1, q1, hbase2]
      · have := coreRegisterModule_noreentry2 spec st2 name st.nextInst
        rw [this.2, q3]
    · rename_i st2 hld2
      rw [hld2] at hld
      obtain ⟨q1, q2, q3, q4⟩ := hld
      refine ⟨q2.trans hbase1, by rw [q1, hbase2]; omega,
        fun inst hok => by simp at hok, q3⟩
    · rename_i st2 hld2
      rw [hld2] at hld
      obtain ⟨q1, q2, q3, q4⟩ := hld
      refine ⟨q2.trans hbase1, by rw [q1, hbase2]; omega,
        fun inst hok => by simp at hok, q3⟩
    · rename_i st2 hld2
      rw [hld2] at hld
      obtain ⟨q1, q2, q3, q4⟩ := hld
      refine ⟨q2.trans hbase1, by rw [q1, hbase2]; omega,
        fun inst hok => by simp at hok, q3⟩

/-- C4: two `load(name)` calls issued before either settles share one
underlying `_doLoadModule` operation: the module is instantiated exactly
once more, its `init` hook runs at most once more (exactly once more when
the shared operation resolves), both callers settle with the same outcome,
and whenever the shared operation settles — resolve or reject alike — the
in-flight `loadingPromises` entry is removed, so a retry after a failure
starts fresh. -/
theorem concurrent_loads_single_flight (spec : ModSpec) (fuel : Nat)
    (st : LState) (name : String)
    (h1 : mapGet st.loadedModules name = none)
    (h2 : st.loadingNames.contains name = false)
    (h3 : spec.valid name = true)
    (h4 : st.coreModules.contains name = false) :
    (runTwoLoads spec fuel st name).resA =
      (runTwoLoads spec fuel st name).resB ∧
    (runTwoLoads spec fuel st name).final.trace.count
        (TEv.instantiated name) =
      st.trace.count (TEv.instantiated name) + 1 ∧
    (runTwoLoads spec fuel st name).final.trace.count (TEv.inited name) ≤
      st.trace.count (TEv.inited name) + 1 ∧
    (∀ inst, (runTwoLoads spec fuel st name).resA = LRes.ok inst →
      (runTwoLoads spec fuel st name).final.trace.count (TEv.inited name) =
        st.trace.count (TEv.inited name) + 1) ∧
    ((runTwoLoads spec fuel st name).resA ≠ LRes.stuck ∧
      (runTwoLoads spec fuel st name).resA ≠ LRes.fuelOut →
      (runTwoLoads spec fuel st name).final.loadingNames.contains name =
        false) := by
  have hc1 : (st.loadingNames ++ [name]).contains name = true := by simp
  have hcnt0 : st.loadingNames.count name = 0 := by
    simp at h2
    exact List.count_eq_zero.mpr h2
  have hself := doLoadModule_self_counts spec name (loadModule spec fuel)
    (fun st2 m2 hh => loadModule_noreentry spec name fuel st2 m2 hh)
    { st with loadingNames := st.loadingNames ++ [name] } h3 hc1 h4
  have hST1cnt : (st.loadingNames ++ [name]).count name =
      st.loadingNames.count name + 1 := by
    simp [List.count_append, List.count_cons]
  have hcond : ¬(st.loadingNames.contains name = true) := by
    simp at h2 ⊢
    exact h2
  dsimp only [runTwoLoads]
  rw [h1]
  dsimp only
  rw [if_neg hcond]
  split
  · rename_i inst0 st2 hdo2
    rw [hdo2] at hself
    obtain ⟨q1, q2, q3, q4⟩ := hself
    have hload1 : st2.loadingNames.count name = 1 := by
      rw [q4, hST1cnt, hcnt0]
    refine ⟨rfl, ?_, ?_, fun inst _ => ?_, fun _ => ?_⟩
    · simp only [List.count_append]
      simp [List.count_cons, q1]
    · simp only [List.count_append]
      simp [List.count_cons]
      exact q2
    · simp only [List.count_append]
      simp [List.count_cons]
      exact q3 inst0 rfl
    · have h0 : (st2.loadingNames.erase name).count name = 0 := by
        rw [List.count_erase_self, hload1]
      simp
      exact List.count_eq_zero.mp h0
  · rename_i e0 st2 hdo2
    rw [hdo2] at hself
    obtain ⟨q1, q2, q3, q4⟩ := hself
    have hload1 : st2.loadingNames.count name = 1 := by
      rw [q4, hST1cnt, hcnt0]
    refine ⟨rfl, q1, q2, fun inst hok => by simp at hok, fun _ => ?_⟩
    have h0 : (st2.loadingNames.erase name).count name = 0 := by
      rw [List.count_erase_self, hload1]
    simp
    exact List.count_eq_zero.mp h0
  · rename_i st2 hdo2
    rw [hdo2] at hself
    obtain ⟨q1, q2, q3, q4⟩ := hself
    exact ⟨rfl, q1, q2, fun inst hok => by simp at hok,
      fun hne => absurd rfl hne.1⟩
  · rename_i st2 hdo2
    rw [hdo2] at hself
    obtain ⟨q1, q2, q3, q4⟩ := hself
    exact ⟨rfl, q1, q2, fun inst hok => by simp at hok,
      fun hne => absurd rfl hne.2⟩

/-- Witness for C4: two concurrent `load("A")` calls on fresh registries
resolve to the same handle `ok 0`, run A's `init` exactly once, and leave no
stale in-flight entry. -/
theorem concurrent_loads_single_flight_witness :
    mapGet LState.start.loadedModules "A" = none ∧
    LState.start.loadingNames.contains "A" = false ∧
    specAB.valid "A" = true ∧
    LState.start.coreModules.contains "A" = false ∧
    (runTwoLoads specAB 5 LState.start "A").resA =
      (runTwoLoads specAB 5 LState.start "A").resB ∧
    (runTwoLoads specAB 5 LState.start "A").final.trace.count
        (TEv.inited "A") = 1 ∧
    (runTwoLoads specAB 5 LState.start "A").resA = LRes.ok 0 ∧
    (runTwoLoads specAB 5 LState.start "A").final.loadingNames = [] :=
  ⟨rfl, rfl, rfl, rfl,
    (concurrent_loads_single_flight specAB 5 LState.start "A"
      rfl rfl rfl rfl).1,
    by decide, by decide, by decide⟩


theorem invCount_append (l1 l2 : List InvRec) (lid : Nat) :
    invCount (l1 ++ l2) lid = invCount l1 lid + invCount l2 lid := by
  simp [invCount, List.filter_append]

theorem runListeners_log_count (beh : Behavior) (ed : EventData)
    (ls : List Listener) (lid : Nat) :
    invCount (runListeners beh ed ls).log lid =
      ls.countP (fun l => l.id == lid) := by
  rw [invCount, runListeners_log, List.filter_map, List.length_map]
  rw [List.countP_eq_length_filter]
  rfl

theorem runWildcards_log_count_zero (beh : Behavior) (ed : EventData)
    (ws : List WListener) (lid : Nat) (h : ∀ w ∈ ws, w.id ≠ lid) :
    invCount (runWildcards beh ed ws).log lid = 0 := by
  rw [invCount, runWildcards_log, List.length_eq_zero]
  refine List.filter_eq_nil_iff.mpr ?_
  intro r hr
  rcases List.mem_map.mp hr with ⟨w, hw, rfl⟩
  simp [h w (List.mem_of_mem_filter hw)]

theorem runListeners_toRemove_mem (beh : Behavior) (ed : EventData)
    (lid cb0 : Nat)
    (hok : ∀ ed', ∃ v, beh cb0 ed' = Except.ok v) :
    ∀ ls : List Listener,
      (∀ l ∈ ls, l.id = lid → l.once = true ∧ l.callback = cb0) →
      ∀ l ∈ ls, l.id = lid → lid ∈ (runListeners beh ed ls).toRemove := by
  intro ls
  induction ls with
  | nil => intro _ l hl; simp at hl
  | cons a as ih =>
      intro hOnce l hl hid
      rcases List.mem_cons.mp hl with rfl | hl'
      · obtain ⟨ho, hcb⟩ := hOnce l (List.mem_cons_self _ _) hid
        obtain ⟨v, hv⟩ := hok ed
        rw [runListeners]
        rw [hcb, hv, ho]
        simp [hid]
      · have htail := ih (fun x hx => hOnce x (List.mem_cons_of_mem _ hx))
          l hl' hid
        rw [runListeners]
        cases hb : beh a.callback ed with
        | ok v =>
            by_cases ho : a.once <;> simp [hb, ho, htail]
        | error e => simp [hb, htail]

theorem sum_mapSet {κ α : Type} [DecidableEq κ] (g : α → Nat) (z : α)
    (hz : g z = 0) :
    ∀ (m : List (κ × α)) (k : κ) (v : α),
      ((mapSet m k v).map (fun ka => g ka.2)).sum +
          g ((mapGet m k).getD z) =
        (m.map (fun ka => g ka.2)).sum + g v := by
  intro m
  induction m with
  | nil => intro k v; simp [mapSet, mapGet, hz]
  | cons p rest ih =>
      intro k v
      obtain ⟨k0, v0⟩ := p
      by_cases hk : k0 = k
      · subst hk
        simp [mapSet, mapGet]
        omega
      · simp only [mapSet, hk, if_false, List.map_cons, List.sum_cons,
          mapGet, ite_false]
        have := ih k v
        omega

theorem mapDelete_of_not_mem_keys {κ α : Type} [DecidableEq κ]
    (m : List (κ × α)) (k : κ) (h : k ∉ m.map Prod.fst) :
    mapDelete m k = m := by
  refine List.filter_eq_self.mpr ?_
  intro p hp
  simp only [ne_eq, decide_eq_true_eq]
  intro hpk
  exact h (List.mem_map.mpr ⟨p, hp, hpk⟩)

theorem sum_mapDelete {κ α : Type} [DecidableEq κ] (g : α → Nat) (z : α)
    (hz : g z = 0) :
    ∀ (m : List (κ × α)) (k : κ), (m.map Prod.fst).Nodup →
      ((mapDelete m k).map (fun ka => g ka.2)).sum +
          g ((mapGet m k).getD z) =
        (m.map (fun ka => g ka.2)).sum := by
  intro m
  induction m with
  | nil => intro k _; simp [mapDelete, mapGet, hz]
  | cons p rest ih =>
      intro k hnd
      obtain ⟨k0, v0⟩ := p
      simp only [List.map_cons, List.nodup_cons] at hnd
      by_cases hk : k0 = k
      · subst hk
        have hdel : mapDelete rest k0 = rest :=
          mapDelete_of_not_mem_keys rest k0 hnd.1
        have hcons : mapDelete ((k0, v0) :: rest) k0 = rest := by
          have h1 : mapDelete ((k0, v0) :: rest) k0 = mapDelete rest k0 := by
            simp [mapDelete, List.filter_cons]
          rw [h1, hdel]
        rw [hcons]
        simp [mapGet]
        omega
      · have hcons : mapDelete ((k0, v0) :: rest) k =
            (k0, v0) :: mapDelete rest k := by
          simp [mapDelete, List.filter_cons, hk]
        rw [hcons]
        simp only [List.map_cons, List.sum_cons]
        have hget : mapGet ((k0, v0) :: rest) k = mapGet rest k := by
          simp [mapGet, hk]
        rw [hget]
        have := ih k hnd.2
        omega

theorem mapSet_keys_sub {κ α : Type} [DecidableEq κ] (m : List (κ × α))
    (k : κ) (v : α) :
    ∀ x ∈ (mapSet m k v).map Prod.fst, x ∈ m.map Prod.fst ∨ x = k := by
  intro x hx
  rcases List.mem_map.mp hx with ⟨p, hp, rfl⟩
  rcases mapSet_mem m k v p hp with rfl | hp'
  · exact Or.inr rfl
  · exact Or.inl (List.mem_map.mpr ⟨p, hp', rfl⟩)

theorem mapSet_keys_nodup {κ α : Type} [DecidableEq κ] :
    ∀ (m : List (κ × α)) (k : κ) (v : α), (m.map Prod.fst).Nodup →
      ((mapSet m k v).map Prod.fst).Nodup := by
  intro m
  induction m with
  | nil => intro k v _; simp [mapSet]
  | cons p rest ih =>
      intro k v hnd
      obtain ⟨k0, v0⟩ := p
      simp only [List.map_cons, List.nodup_cons] at hnd
      by_cases hk : k0 = k
      · subst hk
        have heq : mapSet ((k0, v0) :: rest) k0 v = (k0, v) :: rest := by
          simp [mapSet]
        rw [heq]
        simp only [List.map_cons, List.nodup_cons]
        exact hnd
      · have heq : mapSet ((k0, v0) :: rest) k v = (k0, v0) :: mapSet rest k v := by
          simp [mapSet, hk]
        rw [heq]
        simp only [List.map_cons, List.nodup_cons]
        refine ⟨?_, ih k v hnd.2⟩
        intro hmem
        rcases mapSet_keys_sub rest k v k0 hmem with h | h
        · exact hnd.1 h
        · exact hk h

theorem mapDelete_keys_nodup {κ α : Type} [DecidableEq κ]
    (m : List (κ × α)) (k : κ) (h : (m.map Prod.fst).Nodup) :
    ((mapDelete m k).map Prod.fst).Nodup :=
  h.sublist ((List.filter_sublist m).map Prod.fst)

theorem emitBody_once_occ (beh : Behavior) (b : EventBus) (t d : JVal)
    (lid cb0 : Nat) (hnd : NodupKeys b) (hoe : OnceEntry beh b lid cb0) :
    invCount (EventBus.emitBody beh b t d).log lid +
        busLidOcc (EventBus.emitBody beh b t d).bus lid = busLidOcc b lid ∧
    NodupKeys (EventBus.emitBody beh b t d).bus ∧
    OnceEntry beh (EventBus.emitBody beh b t d).bus lid cb0 := by
  obtain ⟨h1, h2, h3⟩ := hoe
  have hbonce : ∀ l ∈ (mapGet b.events t).getD [], l.id = lid →
      l.once = true ∧ l.callback = cb0 := by
    intro l hl hid
    cases hget : mapGet b.events t with
    | none => rw [hget] at hl; simp at hl
    | some arr =>
        rw [hget] at hl
        exact h1 t arr (mapGet_mem _ _ _ hget) l hl hid
  dsimp only [EventBus.emitBody]
  split
  · rename_i hre
    refine ⟨?_, hnd, h1, h2, h3⟩
    rw [invCount_append, runListeners_log_count,
      runWildcards_log_count_zero _ _ _ _ h2]
    have hzero : ((mapGet b.events t).getD []).countP
        (fun l => l.id == lid) = 0 := by
      refine List.countP_eq_zero.mpr ?_
      intro l hl
      simp only [beq_iff_eq]
      intro hid
      have hmem := runListeners_toRemove_mem beh ⟨t, d, b.nextEventId⟩
        lid cb0 h3 _ hbonce l hl hid
      rw [List.isEmpty_iff] at hre
      rw [hre] at hmem
      simp at hmem
    rw [hzero]
    simp [busLidOcc]
  · split
    · rename_i hre hrem
      have hdel := sum_mapDelete
        (fun arr : List Listener => arr.countP (fun l => l.id == lid)) []
        rfl b.events t hnd
      beta_reduce at hdel
      refine ⟨?_, mapDelete_keys_nodup b.events t hnd, ?_, h2, h3⟩
      · rw [invCount_append, runListeners_log_count,
          runWildcards_log_count_zero _ _ _ _ h2]
        show ((mapGet b.events t).getD []).countP (fun l => l.id == lid) + 0 +
            (((mapDelete b.events t).map
              (fun ka => ka.2.countP (fun l => l.id == lid))).sum +
             b.wildcardListeners.countP (fun w => w.id == lid)) =
          busLidOcc b lid
        rw [busLidOcc]
        omega
      · intro k arr hmem l hl hid
        exact h1 k arr (List.mem_of_mem_filter hmem) l hl hid
    · rename_i hre hrem
      have hremzero : (((mapGet b.events t).getD []).filter
          (fun l => !((runListeners beh ⟨t, d, b.nextEventId⟩
            ((mapGet b.events t).getD [])).toRemove.contains l.id))).countP
          (fun l => l.id == lid) = 0 := by
        refine List.countP_eq_zero.mpr ?_
        intro l hl
        simp only [beq_iff_eq]
        intro hid
        rcases List.mem_filter.mp hl with ⟨hlb, hcond⟩
        have hmem := runListeners_toRemove_mem beh ⟨t, d, b.nextEventId⟩
          lid cb0 h3 _ hbonce l hlb hid
        rw [hid] at hcond
        simp at hcond
        exact hcond hmem
      have hset := sum_mapSet
        (fun arr : List Listener => arr.countP (fun l => l.id == lid)) []
        rfl b.events t
        (((mapGet b.events t).getD []).filter
          (fun l => !((runListeners beh ⟨t, d, b.nextEventId⟩
            ((mapGet b.events t).getD [])).toRemove.contains l.id)))
      beta_reduce at hset
      refine ⟨?_, mapSet_keys_nodup b.events t _ hnd, ?_, h2, h3⟩
      · rw [invCount_append, runListeners_log_count,
          runWildcards_log_count_zero _ _ _ _ h2]
        simp only [busLidOcc]
        rw [hremzero] at hset
        omega
      · intro k arr hmem l hl hid
        rcases mapSet_mem b.events t _ (k, arr) hmem with heq | hin
        · cases heq
          exact hbonce l (List.mem_of_mem_filter hl) hid
        · exact h1 k arr hin l hl hid

theorem emit_once_occ (beh : Behavior) (b : EventBus) (t d : JVal)
    (lid cb0 : Nat) (hnd : NodupKeys b) (hoe : OnceEntry beh b lid cb0) :
    invCount (EventBus.emit beh b t d).log lid +
        busLidOcc (EventBus.emit beh b t d).bus lid = busLidOcc b lid ∧
    NodupKeys (EventBus.emit beh b t d).bus ∧
    OnceEntry beh (EventBus.emit beh b t d).bus lid cb0 := by
  have hp := emitBody_once_occ beh b t d lid cb0 hnd hoe
  dsimp only [EventBus.emit]
  split
  · have hs := emitBody_once_occ beh (EventBus.emitBody beh b t d).bus
      (JVal.vstr "system:error") (JVal.vstr "listener-error-report")
      lid cb0 hp.2.1 hp.2.2
    dsimp only
    refine ⟨?_, hs.2.1, hs.2.2⟩
    rw [invCount_append]
    have e1 := hp.1
    have e2 := hs.1
    omega
  · exact hp

theorem runEmitsLog_once_occ (beh : Behavior) (lid cb0 : Nat) :
    ∀ (evs : List (JVal × JVal)) (b : EventBus), NodupKeys b →
      OnceEntry beh b lid cb0 →
      invCount (runEmitsLog beh b evs).2 lid +
          busLidOcc (runEmitsLog beh b evs).1 lid = busLidOcc b lid := by
  intro evs
  induction evs with
  | nil => intro b _ _; simp [runEmitsLog, invCount]
  | cons td rest ih =>
      intro b hnd hoe
      obtain ⟨t, d⟩ := td
      have h := emit_once_occ beh b t d lid cb0 hnd hoe
      have h2 := ih (EventBus.emit beh b t d).bus h.2.1 h.2.2
      dsimp only [runEmitsLog]
      rw [invCount_append]
      omega

/-- C1 (amended): the at-most-once guarantee needs both non-overlap and a
callback that does not throw.  First conjunct: across any sequence of
non-overlapping emissions — each `emit` call completing before the next
starts — a once-listener whose callback never throws is invoked at most
once (hypotheses: every registry entry carrying the listener id is
once-flagged with that never-throwing callback, the id is not registered as
a wildcard, and the registry holds at most one entry with the id).  Second
conjunct: the never-throws condition is necessary even sequentially —
`emit` pushes to `listenersToRemove` only on successful invocation, so a
once-listener whose callback throws is never removed, and two sequential
emissions of its pattern deliver to it twice.  (Non-overlap is also
necessary: overlapping emissions double-deliver even a successful
once-listener, see the counterexample — removal happens after the
delivering emission's loop, not when its snapshot is taken.) -/
theorem once_listener_at_most_once_sequential (beh : Behavior) (b : EventBus)
    (lid cb0 : Nat) (evs : List (JVal × JVal)) (hnd : NodupKeys b)
    (hoe : OnceEntry beh b lid cb0) (hocc : busLidOcc b lid ≤ 1) :
    invCount (runEmitsLog beh b evs).2 lid ≤ 1 ∧
    invCount (runEmitsLog behBoom busOnceBoom
      [(JVal.vstr "x", JVal.vnum 0), (JVal.vstr "x", JVal.vnum 1)]).2 0 = 2 := by
  refine ⟨?_, by decide⟩
  have h := runEmitsLog_once_occ beh lid cb0 evs b hnd hoe
  omega

theorem once_listener_at_most_once_sequential_witness :
    NodupKeys busOnceX ∧ OnceEntry beh0 busOnceX 0 7 ∧
      busLidOcc busOnceX 0 ≤ 1 ∧
      invCount (runEmitsLog beh0 busOnceX
        [(JVal.vstr "x", JVal.vnum 0), (JVal.vstr "x", JVal.vnum 1)]).2 0 ≤ 1 ∧
      invCount (runEmitsLog behBoom busOnceBoom
        [(JVal.vstr "x", JVal.vnum 0), (JVal.vstr "x", JVal.vnum 1)]).2 0 = 2 := by
  have hev : busOnceX.events = [(JVal.vstr "x", [⟨0, 7, true, 0⟩])] := by
    decide
  have hnd : NodupKeys busOnceX := by
    show (busOnceX.events.map Prod.fst).Nodup
    rw [hev]
    decide
  have hoe : OnceEntry beh0 busOnceX 0 7 := by
    refine ⟨?_, ?_, fun ed => ⟨7, rfl⟩⟩
    · intro k arr hmem l hl hid
      rw [hev] at hmem
      simp only [List.mem_singleton, Prod.mk.injEq] at hmem
      obtain ⟨rfl, rfl⟩ := hmem
      simp only [List.mem_singleton] at hl
      subst hl
      exact ⟨rfl, rfl⟩
    · intro w hw
      have hwc : busOnceX.wildcardListeners = [] := by decide
      rw [hwc] at hw
      simp at hw
  have hocc : busLidOcc busOnceX 0 ≤ 1 := by decide
  exact ⟨hnd, hoe, hocc,
    once_listener_at_most_once_sequential beh0 busOnceX 0 7 _ hnd hoe hocc⟩

theorem wcStep_rel (beh : Behavior) (tid : Nat) (b1 b2 : EventBusM)
    (t : EmitTask) (sref1 sref2 i : Nat) (hs : sref1 = sref2)
    (h : b1.wcHeap = b2.wcHeap) :
    (wcStep beh tid b1 t sref1 i).1 = b1 ∧
    (wcStep beh tid b2 t sref2 i).1 = b2 ∧
    (wcStep beh tid b1 t sref1 i).2 = (wcStep beh tid b2 t sref2 i).2 ∧
    ∀ t', (wcStep beh tid b1 t sref1 i).2.2 = .suspended t' →
      t'.arrRef = t.arrRef := by
  subst hs
  dsimp only [wcStep]
  rw [h]
  split
  · exact ⟨rfl, rfl, rfl, fun t' h' => by cases h'⟩
  · split <;> exact ⟨rfl, rfl, rfl, fun t' h' => by cases h'; rfl⟩

theorem advanceEmit_rel (beh : Behavior) (tid : Nat) (b1 b2 : EventBusM)
    (t : EmitTask) (hrel : BusRel t.arrRef b1 b2) :
    (advanceEmit beh tid b1 t).2.1 = (advanceEmit beh tid b2 t).2.1 ∧
    (advanceEmit beh tid b1 t).2.2 = (advanceEmit beh tid b2 t).2.2 ∧
    ∀ t', (advanceEmit beh tid b1 t).2.2 = .suspended t' →
      t'.arrRef = t.arrRef ∧
      BusRel t.arrRef (advanceEmit beh tid b1 t).1
        (advanceEmit beh tid b2 t).1 := by
  obtain ⟨ha, hwc, hwr, hns⟩ := hrel
  cases hp : t.phase with
  | wildcard sref i =>
      have hw := wcStep_rel beh tid b1 b2 t sref sref i rfl hwc
      dsimp only [advanceEmit]
      rw [hp]
      refine ⟨?_, ?_, ?_⟩
      · rw [hw.2.2.1]
      · rw [hw.2.2.1]
      · intro t' h'
        refine ⟨hw.2.2.2 t' h', ?_⟩
        rw [hw.1, hw.2.1]
        exact ⟨ha, hwc, hwr, hns⟩
  | regular i =>
      cases haref : t.arrRef with
      | none =>
          dsimp only [advanceEmit]
          rw [hp, haref]
          dsimp only
          simp only [List.drop_nil, ite_self]
          have hw := wcStep_rel beh tid b1 b2 t b1.wcRef b2.wcRef 0 hwr hwc
          refine ⟨?_, ?_, ?_⟩
          · rw [hw.2.2.1]
          · rw [hw.2.2.1]
          · intro t' h'
            refine ⟨(hw.2.2.2 t' h').trans haref, ?_⟩
            rw [hw.1, hw.2.1]
            refine ⟨?_, hwc, hwr, hns⟩
            intro r hr
            cases hr
      | some r =>
          obtain ⟨hag, hlt1, hlt2⟩ := ha r haref
          dsimp only [advanceEmit]
          rw [hp, haref]
          dsimp only
          rw [hag]
          split
          · rename_i l rest hdrop
            split
            · refine ⟨rfl, rfl, ?_⟩
              intro t' h'
              cases h'
              exact ⟨rfl, fun r' hr' => by
                cases hr'
                exact ⟨hag, hlt1, hlt2⟩, hwc, hwr, hns⟩
            · refine ⟨rfl, rfl, ?_⟩
              intro t' h'
              cases h'
              exact ⟨rfl, fun r' hr' => by
                cases hr'
                exact ⟨hag, hlt1, hlt2⟩, hwc, hwr, hns⟩
          · rename_i hdrop
            split
            · rename_i hemp
              have hw := wcStep_rel beh tid b1 b2 t b1.wcRef b2.wcRef 0 hwr hwc
              refine ⟨?_, ?_, ?_⟩
              · rw [hw.2.2.1]
              · rw [hw.2.2.1]
              · intro t' h'
                refine ⟨(hw.2.2.2 t' h').trans haref, ?_⟩
                rw [hw.1, hw.2.1]
                refine ⟨?_, hwc, hwr, hns⟩
                intro r' hr'
                cases hr'
                exact ⟨hag, hlt1, hlt2⟩
            · rename_i hemp
              split
              · rename_i hremp
                have hw := wcStep_rel beh tid
                  { b1 with eventsM := mapDelete b1.eventsM t.etype }
                  { b2 with eventsM := mapDelete b2.eventsM t.etype }
                  t b1.wcRef b2.wcRef 0 hwr hwc
                refine ⟨?_, ?_, ?_⟩
                · rw [hw.2.2.1]
                · rw [hw.2.2.1]
                · intro t' h'
                  refine ⟨(hw.2.2.2 t' h').trans haref, ?_⟩
                  rw [hw.1, hw.2.1]
                  refine ⟨?_, hwc, hwr, hns⟩
                  intro r' hr'
                  cases hr'
                  exact ⟨hag, hlt1, hlt2⟩
              · rename_i hremp
                have hw := wcStep_rel beh tid
                  { b1 with
                      arrHeap := mapSet b1.arrHeap b1.nextArr
                        (((mapGet b2.arrHeap r).getD []).filter
                          (fun l => !(t.toRemove.contains l.id))),
                      eventsM := mapSet b1.eventsM t.etype b1.nextArr,
                      nextArr := b1.nextArr + 1 }
                  { b2 with
                      arrHeap := mapSet b2.arrHeap b2.nextArr
                        (((mapGet b2.arrHeap r).getD []).filter
                          (fun l => !(t.toRemove.contains l.id))),
                      eventsM := mapSet b2.eventsM t.etype b2.nextArr,
                      nextArr := b2.nextArr + 1 }
                  t b1.wcRef b2.wcRef 0 hwr hwc
                refine ⟨?_, ?_, ?_⟩
                · rw [hw.2.2.1]
                · rw [hw.2.2.1]
                · intro t' h'
                  refine ⟨(hw.2.2.2 t' h').trans haref, ?_⟩
                  rw [hw.1, hw.2.1]
                  refine ⟨?_, hwc, hwr, hns⟩
                  intro r' hr'
                  cases hr'
                  refine ⟨?_, Nat.lt_succ_of_lt hlt1, Nat.lt_succ_of_lt hlt2⟩
                  rw [mapGet_mapSet_ne _ _ _ _ (Nat.ne_of_gt hlt1),
                    mapGet_mapSet_ne _ _ _ _ (Nat.ne_of_gt hlt2)]
                  exact hag

theorem taskLog_append (tid : Nat) (l1 l2 : List MInv) :
    taskLog tid (l1 ++ l2) = taskLog tid l1 ++ taskLog tid l2 := by
  simp [taskLog, List.filter_append]

theorem mapGet_append_single_ne {κ α : Type} [DecidableEq κ]
    (m : List (κ × α)) (k0 k : κ) (v : α) (h : k0 ≠ k) :
    mapGet (m ++ [(k0, v)]) k = mapGet m k := by
  induction m with
  | nil => simp [mapGet, h]
  | cons p rest ih =>
      obtain ⟨k1, v1⟩ := p
      by_cases hk : k1 = k
      · simp [mapGet, hk]
      · simp [mapGet, hk, ih]

theorem wcStep_task (beh : Behavior) (tid : Nat) (b : EventBusM)
    (t : EmitTask) (sref i : Nat) :
    ∀ rec ∈ (wcStep beh tid b t sref i).2.1, rec.task = tid := by
  dsimp only [wcStep]
  split
  · intro rec hrec
    simp at hrec
  · split <;>
      (intro rec hrec
       simp only [List.mem_singleton] at hrec
       subst hrec
       rfl)

theorem advanceEmit_task (beh : Behavior) (tid : Nat) (b : EventBusM)
    (t : EmitTask) :
    ∀ rec ∈ (advanceEmit beh tid b t).2.1, rec.task = tid := by
  dsimp only [advanceEmit]
  split
  · split
    · split <;>
        (intro rec hrec
         simp only [List.mem_singleton] at hrec
         subst hrec
         rfl)
    · exact wcStep_task beh tid _ t _ 0
  · exact wcStep_task beh tid _ t _ _

theorem startEmitM_props (beh : Behavior) (st : MState) (et : String)
    (d : JVal) (tid : Nat) (hlt : tid < st.nextTask) :
    taskLog tid (startEmitM beh st et d).logM = taskLog tid st.logM ∧
    mapGet (startEmitM beh st et d).tasks tid = mapGet st.tasks tid ∧
    tid < (startEmitM beh st et d).nextTask := by
  have hnil : ∀ (lg : List MInv), (∀ rec ∈ lg, rec.task = st.nextTask) →
      taskLog tid lg = [] := by
    intro lg hlg
    refine List.filter_eq_nil_iff.mpr ?_
    intro rec hrec
    rw [hlg rec hrec]
    simp
    omega
  have key := advanceEmit_task beh st.nextTask
    { st.bus with
      historyM :=
        if maxHistorySize < (st.bus.historyM ++
            [(⟨JVal.vstr et, d, st.bus.nextEid⟩ : EventData)]).length then
          (st.bus.historyM ++
            [(⟨JVal.vstr et, d, st.bus.nextEid⟩ : EventData)]).drop 1
        else st.bus.historyM ++
          [(⟨JVal.vstr et, d, st.bus.nextEid⟩ : EventData)],
      nextEid := st.bus.nextEid + 1 }
    { etype := et, data := d, eid := st.bus.nextEid,
      arrRef := mapGet st.bus.eventsM et, results := [], errs := [],
      toRemove := [], phase := .regular 0 }
  dsimp only [startEmitM]
  split
  · rename_i t' heq
    refine ⟨?_, ?_, ?_⟩
    · dsimp only
      rw [taskLog_append, hnil _ key, List.append_nil]
    · exact mapGet_append_single_ne st.tasks st.nextTask tid t' (by omega)
    · show tid < st.nextTask + 1
      omega
  · rename_i hasErr heq
    refine ⟨?_, rfl, ?_⟩
    · dsimp only
      rw [taskLog_append, hnil _ key, List.append_nil]
    · show tid < st.nextTask + 1
      omega

theorem offM_busrel_left (aref : Option Nat) (b1 b2 : EventBusM)
    (et : String) (cb : Nat) (hex : includesStar et = false)
    (h : BusRel aref b1 b2) : BusRel aref (b1.offM et cb) b2 := by
  obtain ⟨ha, hwc, hwr, hns⟩ := h
  dsimp only [EventBusM.offM]
  rw [hex]
  simp only [Bool.false_eq_true, if_false]
  split
  · exact ⟨ha, hwc, hwr, hns⟩
  · rename_i r0 hm
    split
    · exact ⟨ha, hwc, hwr, hns⟩
    · refine ⟨?_, hwc, hwr, hns⟩
      intro r hr
      obtain ⟨hag, hlt1, hlt2⟩ := ha r hr
      refine ⟨?_, Nat.lt_succ_of_lt hlt1, hlt2⟩
      rw [mapGet_mapSet_ne _ _ _ _ (Nat.ne_of_gt hlt1)]
      exact hag

theorem offsim_off (tid : Nat) (st1 st2 : MState) (et : String) (cb : Nat)
    (hex : includesStar et = false) (h : OffSim tid st1 st2) :
    OffSim tid { st1 with bus := st1.bus.offM et cb } st2 := by
  obtain ⟨hlog, hn1, hn2, hcase⟩ := h
  refine ⟨hlog, hn1, hn2, ?_⟩
  rcases hcase with ⟨t, h1, h2, hrel⟩ | ⟨h1, h2⟩
  · exact Or.inl ⟨t, h1, h2, offM_busrel_left t.arrRef st1.bus st2.bus
      et cb hex hrel⟩
  · exact Or.inr ⟨h1, h2⟩

theorem offsim_step (beh : Behavior) (tid : Nat) (st1 st2 : MState)
    (h : OffSim tid st1 st2) :
    OffSim tid (doStepM beh st1 tid) (doStepM beh st2 tid) := by
  obtain ⟨hlog, hn1, hn2, hcase⟩ := h
  rcases hcase with ⟨t, h1, h2, hrel⟩ | ⟨h1, h2⟩
  · have hm1 : mapGet st1.tasks tid = some t := by
      rw [h1]
      simp [mapGet]
    have hm2 : mapGet st2.tasks tid = some t := by
      rw [h2]
      simp [mapGet]
    have hae := advanceEmit_rel beh tid st1.bus st2.bus t hrel
    have hd1 : mapGet (mapDelete st1.tasks tid) tid = none := by
      rw [h1]
      simp [mapDelete, mapGet]
    have hd2 : mapGet (mapDelete st2.tasks tid) tid = none := by
      rw [h2]
      simp [mapDelete, mapGet]
    dsimp only [doStepM]
    rw [hm1, hm2]
    dsimp only
    split
    · rename_i t1' heq1
      have heq2 : (advanceEmit beh tid st2.bus t).2.2 = .suspended t1' :=
        hae.2.1.symm.trans heq1
      rw [heq2]
      dsimp only
      obtain ⟨harf, hrel'⟩ := hae.2.2 t1' heq1
      refine ⟨?_, hn1, hn2, Or.inl ⟨t1', ?_, ?_, ?_⟩⟩
      · dsimp only
        rw [taskLog_append, taskLog_append, hae.1, hlog]
      · show mapSet st1.tasks tid t1' = [(tid, t1')]
        rw [h1]
        simp [mapSet]
      · show mapSet st2.tasks tid t1' = [(tid, t1')]
        rw [h2]
        simp [mapSet]
      · show BusRel t1'.arrRef (advanceEmit beh tid st1.bus t).1
          (advanceEmit beh tid st2.bus t).1
        rw [harf]
        exact hrel'
    · rename_i hasErr1 heq1
      have heq2 : (advanceEmit beh tid st2.bus t).2.2 = .completed hasErr1 :=
        hae.2.1.symm.trans heq1
      rw [heq2]
      dsimp only
      split
      · rename_i hc
        have hp1 := startEmitM_props beh
          { st1 with
              bus := (advanceEmit beh tid st1.bus t).1,
              logM := st1.logM ++ (advanceEmit beh tid st1.bus t).2.1,
              tasks := mapDelete st1.tasks tid }
          "system:error" (.vstr "listener-error-report") tid hn1
        have hp2 := startEmitM_props beh
          { st2 with
              bus := (advanceEmit beh tid st2.bus t).1,
              logM := st2.logM ++ (advanceEmit beh tid st2.bus t).2.1,
              tasks := mapDelete st2.tasks tid }
          "system:error" (.vstr "listener-error-report") tid hn2
        refine ⟨?_, hp1.2.2, hp2.2.2, Or.inr ⟨?_, ?_⟩⟩
        · rw [hp1.1, hp2.1]
          dsimp only
          rw [taskLog_append, taskLog_append, hae.1, hlog]
        · rw [hp1.2.1]
          exact hd1
        · rw [hp2.2.1]
          exact hd2
      · rename_i hc
        refine ⟨?_, hn1, hn2, Or.inr ⟨?_, ?_⟩⟩
        · dsimp only
          rw [taskLog_append, taskLog_append, hae.1, hlog]
        · exact hd1
        · exact hd2
  · dsimp only [doStepM]
    rw [h1, h2]
    exact ⟨hlog, hn1, hn2, Or.inr ⟨h1, h2⟩⟩

theorem runM_offsim (beh : Behavior) (tid : Nat) :
    ∀ (acts : List MAct) (st1 st2 : MState), OffOnly tid acts →
      (∀ et cb, MAct.unsubM et cb ∈ acts → includesStar et = false) →
      OffSim tid st1 st2 →
      taskLog tid (runM beh st1 acts).logM =
        taskLog tid (runM beh st2
          (acts.filter (fun a => a == MAct.stepM tid))).logM := by
  intro acts
  induction acts with
  | nil => intro st1 st2 _ _ h; exact h.1
  | cons a rest ih =>
      intro st1 st2 hOff hex hsim
      have hOffR : OffOnly tid rest := fun x hx =>
        hOff x (List.mem_cons_of_mem a hx)
      have hexR : ∀ et cb, MAct.unsubM et cb ∈ rest →
          includesStar et = false := fun et cb hx =>
        hex et cb (List.mem_cons_of_mem a hx)
      rcases hOff a (List.mem_cons_self a rest) with ⟨et, cb, rfl⟩ | rfl
      · have hfe : (MAct.unsubM et cb == MAct.stepM tid) = false := by
          simp
        rw [List.filter_cons]
        rw [hfe]
        dsimp only [runM, doActM]
        exact ih { st1 with bus := st1.bus.offM et cb } st2 hOffR hexR
          (offsim_off tid st1 st2 et cb
            (hex et cb (List.mem_cons_self _ _)) hsim)
      · have hfe : (MAct.stepM tid == MAct.stepM tid) = true := by
          simp
        rw [List.filter_cons]
        rw [hfe]
        dsimp only [runM, doActM]
        exact ih (doStepM beh st1 tid) (doStepM beh st2 tid) hOffR hexR
          (offsim_step beh tid st1 st2 hsim)

/-- C2 (amended): unsubscribing never changes an in-flight emission's
deliveries.  For any machine state holding one suspended emission task and
any schedule interleaving resumptions of that emission with `off` calls on
exact (non-wildcard) patterns, the emission's delivery log equals the log of
the same schedule with all the `off` calls removed: `off` builds a fresh
filtered array and repoints the registry, never mutating the array object
the in-flight emission iterates.  (The subscribe half of the original claim
fails, see the counterexample — `on` pushes onto the live array.) -/
theorem unsubscribe_does_not_change_inflight_deliveries (beh : Behavior)
    (st : MState) (tid : Nat) (t : EmitTask) (acts : List MAct)
    (h1 : st.tasks = [(tid, t)]) (h2 : tid < st.nextTask)
    (h3 : ∀ r, t.arrRef = some r → r < st.bus.nextArr)
    (hOff : OffOnly tid acts)
    (hex : ∀ et cb, MAct.unsubM et cb ∈ acts → includesStar et = false) :
    taskLog tid (runM beh st acts).logM =
      taskLog tid (runM beh st
        (acts.filter (fun a => a == MAct.stepM tid))).logM :=
  runM_offsim beh tid acts st st hOff hex
    ⟨rfl, h2, h2, Or.inl ⟨t, h1, h1,
      fun r hr => ⟨rfl, h3 r hr, h3 r hr⟩, rfl, rfl, rfl⟩⟩

theorem unsubscribe_does_not_change_inflight_deliveries_witness :
    (doActM beh0 mSubX (MAct.emitM "x" (JVal.vnum 0))).tasks =
      [(0, { etype := "x", data := JVal.vnum 0, eid := 0, arrRef := some 0,
             results := [5], errs := [], toRemove := [],
             phase := EmitPhase.regular 1 })] ∧
    taskLog 0 (runM beh0 (doActM beh0 mSubX (MAct.emitM "x" (JVal.vnum 0)))
        [MAct.unsubM "x" 5, MAct.stepM 0]).logM =
      taskLog 0 (runM beh0 (doActM beh0 mSubX (MAct.emitM "x" (JVal.vnum 0)))
        ([MAct.unsubM "x" 5, MAct.stepM 0].filter
          (fun a => a == MAct.stepM 0))).logM := by
  refine ⟨by decide, ?_⟩
  exact unsubscribe_does_not_change_inflight_deliveries beh0
    (doActM beh0 mSubX (MAct.emitM "x" (JVal.vnum 0))) 0
    { etype := "x", data := JVal.vnum 0, eid := 0, arrRef := some 0,
      results := [5], errs := [], toRemove := [],
      phase := EmitPhase.regular 1 }
    [MAct.unsubM "x" 5, MAct.stepM 0]
    (by decide) (by decide)
    (by intro r hr; cases hr; decide)
    (by
      intro a ha
      simp only [List.mem_cons, List.mem_singleton] at ha
      rcases ha with rfl | rfl | h
      · exact Or.inl ⟨"x", 5, rfl⟩
      · exact Or.inr rfl
      · cases h)
    (by
      intro et cb hmem
      simp only [List.mem_cons, List.mem_singleton] at hmem
      rcases hmem with h | h | h
      · cases h
        decide
      · cases h
      · cases h)
